import Mathlib

/-!
Verification development for the MoveSmith random Move-program generator.

The definitions below are a shallow embedding of the generator's data model
and of the algorithms referenced by the claims:

* `types.rs`      : `Ability`, `Type` (embedded as `MoveType`), `TypeParameter`,
                    `StructDefinition` and friends.
* `ast.rs`        : the expression AST and the `all_exprs` collector.
* `codegen/mod.rs`: the single-line rendering (`inline`) of types, used by the
                    phantom-type post-processing pass.
* `move_smith.rs` : `post_process_struct`, `post_process_function` (acquires
                    part), `post_process_module` (acquires fixed point),
                    `generate_struct_skeleton`, `generate_type_parameter`,
                    `generate_function_signature` (return-type fix-up),
                    `generate_runners`, `fill_struct` (field-type acceptance),
                    `get_usable_struct_type`, `check_struct_reachable`,
                    `get_all_used_struct_in_type`, `derive_abilities_of_type`,
                    and the deadline check in `generate_expression_of_type`.
* `utils.rs`      : `choose_idx_weighted`.

Byte-driven decisions of the `arbitrary` crate are modelled explicitly: a byte
stream is a `List Nat`, `bool::arbitrary` consumes one byte and never fails
(the crate's `fill_buffer` zero-pads on exhaustion), and `int_in_range` over a
singleton range returns the bound without consuming bytes.
-/

namespace MoveSmith

/-- Modelled from the spec: `names.rs` (the identifier pool) is not under
`src/`; per spec §3 an identifier is an immutable pair of a globally unique
name string and a kind tag. The kinds are the ones used by the sources under
`src/`. -/
inductive IdentifierKind where
  | Module
  | Struct
  | Function
  | TypeParameter
  | Var
  | Block
  | Constant
  | Type
  | StructConcrete
deriving DecidableEq, Repr

/-- Modelled from the spec: an identifier is `(name string, kind)`; equality is
structural on both components. -/
structure Identifier where
  name : String
  kind : IdentifierKind
deriving DecidableEq, Repr

/-- Modelled from the spec: `Identifier::inline`/`emit_code` render the bare
name string. -/
def Identifier.inline (id : Identifier) : String := id.name

/-- `types.rs`: abilities of a struct. -/
inductive Ability where
  | Copy
  | Drop
  | Store
  | Key
deriving DecidableEq, Repr

/-- `Ability::ALL`. -/
def Ability.ALL : List Ability := [.Copy, .Drop, .Store, .Key]

/-- `Ability::NONE`. -/
def Ability.NONE : List Ability := []

/-- `Ability::PRIMITIVES`. -/
def Ability.PRIMITIVES : List Ability := [.Copy, .Drop, .Store]

/-- `Ability::REF`. -/
def Ability.REF : List Ability := [.Copy, .Drop]

/-- `types.rs`: a type parameter `(name, abilities, is_phantom)`. -/
structure TypeParameter where
  name : Identifier
  abilities : List Ability
  is_phantom : Bool
deriving DecidableEq, Repr

/-- `types.rs`: an ordered list of type parameters. -/
structure TypeParameters where
  type_parameters : List TypeParameter
deriving DecidableEq, Repr

instance : Inhabited TypeParameters := ⟨⟨[]⟩⟩

/-- `types.rs`: the (unapplied) type of a struct. -/
structure StructType where
  name : Identifier
  type_parameters : TypeParameters
deriving DecidableEq, Repr

/-- `types.rs`: the Move type algebra (`enum Type`).  `StructConcrete`'s
`StructTypeConcrete { name, type_args: TypeArgs { type_args } }` wrapper pair
is inlined into the constructor to keep the nested induction simple; the field
names are preserved. -/
inductive MoveType where
  | U8
  | U16
  | U32
  | U64
  | U128
  | U256
  | Bool
  | Address
  | Signer
  | Vector (t : MoveType)
  | Ref (t : MoveType)
  | MutRef (t : MoveType)
  | Tuple (ts : List MoveType)
  | Struct (st : StructType)
  | StructConcrete (name : Identifier) (type_args : List MoveType)
  | Function (id : Identifier)
  | TypeParameter (tp : TypeParameter)

mutual

/-- Structural equality test for `MoveType` (the derived `PartialEq` of the
source); written by hand because `deriving` does not handle the nested
`List MoveType` occurrences. -/
def mvBeq : MoveType → MoveType → Bool
  | .U8, .U8 => true
  | .U16, .U16 => true
  | .U32, .U32 => true
  | .U64, .U64 => true
  | .U128, .U128 => true
  | .U256, .U256 => true
  | .Bool, .Bool => true
  | .Address, .Address => true
  | .Signer, .Signer => true
  | .Vector a, .Vector b => mvBeq a b
  | .Ref a, .Ref b => mvBeq a b
  | .MutRef a, .MutRef b => mvBeq a b
  | .Tuple as, .Tuple bs => mvBeqList as bs
  | .Struct s, .Struct t => decide (s = t)
  | .StructConcrete n as, .StructConcrete m bs => decide (n = m) && mvBeqList as bs
  | .Function i, .Function j => decide (i = j)
  | .TypeParameter s, .TypeParameter t => decide (s = t)
  | _, _ => false

/-- Pointwise `mvBeq` on lists. -/
def mvBeqList : List MoveType → List MoveType → Bool
  | [], [] => true
  | a :: as, b :: bs => mvBeq a b && mvBeqList as bs
  | _, _ => false

end

set_option maxHeartbeats 3200000 in
theorem mvEqOfBeq_aux : ∀ n : Nat,
    (∀ a b : MoveType, sizeOf a ≤ n → mvBeq a b = true → a = b) ∧
    (∀ as bs : List MoveType, sizeOf as ≤ n → mvBeqList as bs = true → as = bs) := by
  intro n
  induction n with
  | zero =>
    constructor
    · intro a b hs _; cases a <;> simp at hs
    · intro as bs hs _; cases as <;> simp at hs
  | succ n ih =>
    constructor
    · intro a b hs h
      cases a <;> cases b <;> try exact Bool.noConfusion h
      all_goals try rfl
      · rename_i a b
        exact congrArg MoveType.Vector (ih.1 a b (by simp at hs; omega) h)
      · rename_i a b
        exact congrArg MoveType.Ref (ih.1 a b (by simp at hs; omega) h)
      · rename_i a b
        exact congrArg MoveType.MutRef (ih.1 a b (by simp at hs; omega) h)
      · rename_i as bs
        exact congrArg MoveType.Tuple (ih.2 as bs (by simp at hs; omega) h)
      · exact congrArg MoveType.Struct (of_decide_eq_true h)
      · rename_i n₁ as m₁ bs
        have h' := Bool.and_eq_true _ _ |>.mp h
        rw [of_decide_eq_true h'.1, ih.2 as bs (by simp at hs; omega) h'.2]
      · exact congrArg MoveType.Function (of_decide_eq_true h)
      · exact congrArg MoveType.TypeParameter (of_decide_eq_true h)
    · intro as bs hs h
      cases as <;> cases bs <;> try exact Bool.noConfusion h
      · rfl
      · rename_i a as b bs
        have h' := Bool.and_eq_true _ _ |>.mp h
        rw [ih.1 a b (by simp at hs; omega) h'.1, ih.2 as bs (by simp at hs; omega) h'.2]

theorem mvEqOfBeq {a b : MoveType} (h : mvBeq a b = true) : a = b :=
  (mvEqOfBeq_aux (sizeOf a)).1 a b le_rfl h

mutual

theorem mvBeqRefl : ∀ a : MoveType, mvBeq a a = true
  | .U8 => rfl
  | .U16 => rfl
  | .U32 => rfl
  | .U64 => rfl
  | .U128 => rfl
  | .U256 => rfl
  | .Bool => rfl
  | .Address => rfl
  | .Signer => rfl
  | .Vector a => mvBeqRefl a
  | .Ref a => mvBeqRefl a
  | .MutRef a => mvBeqRefl a
  | .Tuple as => mvBeqListRefl as
  | .Struct _ => decide_eq_true rfl
  | .StructConcrete _ as =>
      (Bool.and_eq_true _ _).mpr ⟨decide_eq_true rfl, mvBeqListRefl as⟩
  | .Function _ => decide_eq_true rfl
  | .TypeParameter _ => decide_eq_true rfl

theorem mvBeqListRefl : ∀ as : List MoveType, mvBeqList as as = true
  | [] => rfl
  | a :: as =>
      (Bool.and_eq_true _ _).mpr ⟨mvBeqRefl a, mvBeqListRefl as⟩

end

instance : DecidableEq MoveType := fun a b =>
  decidable_of_iff (mvBeq a b = true) ⟨mvEqOfBeq, fun h => h ▸ mvBeqRefl a⟩

/-- `types.rs`: `TypeArgs` — the ordered list of type arguments used at call
and pack sites. -/
structure TypeArgs where
  type_args : List MoveType
deriving DecidableEq

instance : Inhabited TypeArgs := ⟨⟨[]⟩⟩

/-- `ast.rs`: a struct definition. -/
structure StructDefinition where
  name : Identifier
  abilities : List Ability
  type_parameters : TypeParameters
  fields : List (Identifier × MoveType)
deriving DecidableEq

/-- `ast.rs`: `StructDefinition::get_type`. -/
def StructDefinition.get_type (s : StructDefinition) : MoveType :=
  .Struct ⟨s.name, s.type_parameters⟩

mutual

/-- `types.rs`: `Type::get_name`, the canonical identifier of a type. -/
def MoveType.get_name : MoveType → Identifier
  | .U8 => ⟨"U8", .Type⟩
  | .U16 => ⟨"U16", .Type⟩
  | .U32 => ⟨"U32", .Type⟩
  | .U64 => ⟨"U64", .Type⟩
  | .U128 => ⟨"U128", .Type⟩
  | .U256 => ⟨"U256", .Type⟩
  | .Bool => ⟨"Bool", .Type⟩
  | .Address => ⟨"Address", .Type⟩
  | .Signer => ⟨"Signer", .Type⟩
  | .Vector t => ⟨"Vector<" ++ t.get_name.name ++ ">", .Type⟩
  | .Ref t => ⟨"&" ++ t.get_name.name, .Type⟩
  | .MutRef t => ⟨"&mut " ++ t.get_name.name, .Type⟩
  | .Tuple ts => ⟨"(" ++ MoveType.tupleNameParts ts ++ ")", .Type⟩
  | .Struct st => st.name
  | .StructConcrete name _ => name
  | .Function id => id
  | .TypeParameter tp => tp.name

/-- Helper for `Type::get_name` on tuples: each component name followed by
`", "`, matching the source's push loop. -/
def MoveType.tupleNameParts : List MoveType → String
  | [] => ""
  | t :: rest => t.get_name.name ++ ", " ++ MoveType.tupleNameParts rest

end

mutual

/-- `codegen/mod.rs`: `Type::inline` — the single-line Move rendering of a
type.  The `Type::Function` variant falls into the source's `unimplemented!`
panic; it is mapped to a sentinel string here (it never occurs in struct
fields). -/
def MoveType.inline : MoveType → String
  | .U8 => "u8"
  | .U16 => "u16"
  | .U32 => "u32"
  | .U64 => "u64"
  | .U128 => "u128"
  | .U256 => "u256"
  | .Bool => "bool"
  | .Ref t => "&" ++ t.inline
  | .MutRef t => "&mut " ++ t.inline
  | .Tuple ts => "(" ++ MoveType.inlineJoin ts ++ ")"
  | .Struct st => st.name.inline
  | .StructConcrete name args =>
      name.inline ++ (if args.isEmpty then "" else "<" ++ MoveType.inlineJoin args ++ ">")
  | .TypeParameter tp => tp.name.inline
  | .Address => "address"
  | .Signer => "signer"
  | .Vector t => "vector<" ++ t.inline ++ ">"
  | .Function _ => "!unimplemented!"

/-- Helper: the `", "`-separated rendering of a type list (the `join(", ")`
of the source). -/
def MoveType.inlineJoin : List MoveType → String
  | [] => ""
  | [t] => t.inline
  | t :: rest => t.inline ++ ", " ++ MoveType.inlineJoin rest

end

/-- The `arbitrary` crate's error kind (`arbitrary::Error`). -/
inductive ArbError where
  | EmptyChoose
  | NotEnoughData
  | IncorrectFormat
deriving DecidableEq, Repr

/-- `bool::arbitrary`: reads one byte (zero-padding on exhaustion, so it never
fails) and tests its low bit. -/
def arbitraryBool : List Nat → Bool × List Nat
  | [] => (false, [])
  | b :: rest => (b % 2 = 1, rest)

/-- `int_in_range(0..=0)`: over a singleton range the `arbitrary` crate
returns the unique bound and consumes no bytes. -/
def intInRange00 (bytes : List Nat) : Nat × List Nat := (0, bytes)

/-- Substring occurrence on character lists: Rust's `str::contains` with a
string pattern. -/
def subOccurs (pat : List Char) : List Char → Bool
  | [] => List.isPrefixOf pat []
  | c :: t => List.isPrefixOf pat (c :: t) || subOccurs pat t

/-- Rust `String::contains(&pat)` — textual substring test. -/
def strContains (hay pat : String) : Bool := subOccurs pat.toList hay.toList

/-! ### C1 — `post_process_struct` (phantom type-parameter pass) -/

/-- `move_smith.rs` `post_process_struct`: the `,`-joined inline rendering of
all field types of a struct (`types_code`). -/
def typesCode (st : StructDefinition) : String :=
  String.intercalate "," (st.fields.map (fun f => f.2.inline))

/-- The per-type-parameter loop of `post_process_struct`: each parameter's
`is_phantom` is drawn via `bool::arbitrary` and then forced to `false` when
the parameter's name occurs textually in `types_code`. -/
def postProcessTPs (types_code : String) :
    List TypeParameter → List Nat → List TypeParameter × List Nat
  | [], bytes => ([], bytes)
  | tp :: rest, bytes =>
      let d := arbitraryBool bytes
      let ip := if strContains types_code tp.name.name then false else d.1
      let r := postProcessTPs types_code rest d.2
      ({ tp with is_phantom := ip } :: r.1, r.2)

/-- `move_smith.rs` `post_process_struct` (lines 190–211). -/
def post_process_struct (st : StructDefinition) (bytes : List Nat) :
    StructDefinition × List Nat :=
  let r := postProcessTPs (typesCode st) st.type_parameters.type_parameters bytes
  ({ st with type_parameters := ⟨r.1⟩ }, r.2)

/-- Claim C1 as stated, for one struct: after post-processing, `is_phantom`
holds iff the parameter's name does not occur textually in any field type. -/
def PhantomIffAbsent (st : StructDefinition) : Prop :=
  ∀ tp ∈ st.type_parameters.type_parameters,
    (tp.is_phantom = true ↔ strContains (typesCode st) tp.name.name = false)

instance (st : StructDefinition) : Decidable (PhantomIffAbsent st) := by
  unfold PhantomIffAbsent; infer_instance

/-- A struct skeleton with one type parameter `tp0` and no fields. -/
def phantomCexStruct : StructDefinition :=
  { name := ⟨"Struct0", .Struct⟩
    abilities := [.Drop, .Copy]
    type_parameters := ⟨[⟨⟨"tp0", .TypeParameter⟩, [.Copy, .Drop], false⟩]⟩
    fields := [] }

/-- C1 counterexample: on the struct `phantomCexStruct` (one type parameter
`tp0`, no fields, so `tp0` does not occur in any field type) with byte stream
`[0]`, `bool::arbitrary` yields `false` and the pass leaves `is_phantom`
false, refuting the claimed "iff". -/
theorem C1_counterexample :
    ¬ PhantomIffAbsent (post_process_struct phantomCexStruct [0]).1 := by
  decide

theorem postProcessTPs_phantom_only_if_absent (types_code : String) :
    ∀ (tps : List TypeParameter) (bytes : List Nat) (tp : TypeParameter),
      tp ∈ (postProcessTPs types_code tps bytes).1 → tp.is_phantom = true →
      strContains types_code tp.name.name = false
  | [], _, _, h, _ => absurd h (List.not_mem_nil _)
  | tp₀ :: rest, bytes, tp, h, hph => by
      simp only [postProcessTPs, List.mem_cons] at h
      rcases h with h | h
      · subst h
        simp only at hph
        by_cases hc : strContains types_code tp₀.name.name = true
        · rw [if_pos hc] at hph; exact absurd hph (by simp)
        · simpa using hc
      · exact postProcessTPs_phantom_only_if_absent types_code rest _ tp h hph

/-- C1 (amended): after `post_process_struct`, a type parameter is phantom
only if its name does not textually occur in any field type; when the name
does occur the flag is forced to `false`, and otherwise the flag is the bit
drawn from the byte stream (so it need not be `true`). -/
theorem C1_phantom_only_if_absent (st : StructDefinition) (bytes : List Nat)
    (tp : TypeParameter)
    (htp : tp ∈ (post_process_struct st bytes).1.type_parameters.type_parameters)
    (hph : tp.is_phantom = true) :
    strContains (typesCode st) tp.name.name = false :=
  postProcessTPs_phantom_only_if_absent (typesCode st)
    st.type_parameters.type_parameters bytes tp htp hph

/-- C1 witness: with byte stream `[1]` the single parameter of
`phantomCexStruct` comes out phantom, and the theorem yields that its name is
absent from the field types. -/
theorem C1_phantom_only_if_absent_witness :
    strContains (typesCode phantomCexStruct) "tp0" = false :=
  C1_phantom_only_if_absent phantomCexStruct [1]
    ⟨⟨"tp0", .TypeParameter⟩, [.Copy, .Drop], true⟩ (by decide) rfl

/-! ### C3 — the deadline check in `generate_expression_of_type` -/

/-- `move_smith.rs` lines 1770–1773: the head of every
`generate_expression_of_type` call. When `env.check_timeout()` reports that
the wall-clock deadline has expired, the function returns
`Err(Error::IncorrectFormat)` (the source comment reads "Just return a random
error..."); otherwise it continues with the remainder of the body, abstracted
here as `rest`. -/
def generate_expression_of_type_deadline {α : Type} (timedOut : Bool)
    (rest : Except ArbError α) : Except ArbError α :=
  if timedOut then .error .IncorrectFormat else rest

/-- C3 counterexample: with the deadline expired, the call returns the
`IncorrectFormat` error kind, not `NotEnoughData` as claimed. -/
theorem C3_counterexample :
    generate_expression_of_type_deadline true (Except.ok ()) ≠
      Except.error ArbError.NotEnoughData := by
  simp [generate_expression_of_type_deadline]

/-- C3 (amended): when the deadline has expired, every descent into
`generate_expression_of_type` returns the error `Error::IncorrectFormat`
(a different kind from the oracle's `NotEnoughData`), and the error
propagates through the caller's `?`-chaining, so the partial AST is
discarded rather than emitted. -/
theorem C3_deadline_error {α β : Type} (rest : Except ArbError α)
    (k : α → Except ArbError β) :
    generate_expression_of_type_deadline true rest =
        Except.error ArbError.IncorrectFormat ∧
      (generate_expression_of_type_deadline true rest).bind k =
        Except.error ArbError.IncorrectFormat :=
  ⟨rfl, rfl⟩

/-! ### C6 — return-type fix-up in `generate_function_signature` -/

/-- `move_smith.rs` lines 825–830: the returned type to check — the return
type itself when it is a type parameter, or the referent of a (mutable)
reference. -/
def ret_ty_to_check : Option MoveType → Option MoveType
  | some (MoveType.TypeParameter tp) => some (.TypeParameter tp)
  | some (.Ref t) => some t
  | some (.MutRef t) => some t
  | _ => none

/-- `move_smith.rs` lines 832–838: if the checked return type is not already
the type of some parameter, append a fresh parameter of that exact type. -/
def fixup_return_param (parameters : List (Identifier × MoveType))
    (return_type : Option MoveType) (fresh : Identifier) :
    List (Identifier × MoveType) :=
  match ret_ty_to_check return_type with
  | some ret_ty =>
      if parameters.any (fun p => decide (p.2 = ret_ty)) then parameters
      else parameters ++ [(fresh, ret_ty)]
  | none => parameters

/-- C6: whenever the declared return type is a type parameter `T`, or a
reference or mutable reference to `T`, the fixed-up parameter list contains a
parameter whose type is exactly `T`. -/
theorem C6_return_type_param_in_params
    (parameters : List (Identifier × MoveType)) (return_type : Option MoveType)
    (fresh : Identifier) (tp : TypeParameter)
    (hret : return_type = some (.TypeParameter tp) ∨
      return_type = some (.Ref (.TypeParameter tp)) ∨
      return_type = some (.MutRef (.TypeParameter tp))) :
    ∃ p ∈ fixup_return_param parameters return_type fresh,
      p.2 = MoveType.TypeParameter tp := by
  have hrc : ret_ty_to_check return_type = some (.TypeParameter tp) := by
    rcases hret with h | h | h <;> subst h <;> rfl
  have hfix : fixup_return_param parameters return_type fresh =
      if parameters.any (fun p => decide (p.2 = MoveType.TypeParameter tp))
      then parameters
      else parameters ++ [(fresh, MoveType.TypeParameter tp)] := by
    unfold fixup_return_param
    rw [hrc]
  rw [hfix]
  by_cases hany :
      parameters.any (fun p => decide (p.2 = MoveType.TypeParameter tp)) = true
  · rw [if_pos hany]
    obtain ⟨p, hp, hdec⟩ := List.any_eq_true.mp hany
    exact ⟨p, hp, of_decide_eq_true hdec⟩
  · rw [if_neg hany]
    exact ⟨(fresh, .TypeParameter tp), by simp, rfl⟩

/-- A concrete type parameter for the C6 witness. -/
def c6tp : TypeParameter := ⟨⟨"tp1", .TypeParameter⟩, [.Copy, .Drop], false⟩

/-- C6 witness: for an empty parameter list and return type `&tp1`, the
fix-up produces a parameter of type exactly `tp1`. -/
theorem C6_return_type_param_in_params_witness :
    ∃ p ∈ fixup_return_param [] (some (.Ref (.TypeParameter c6tp)))
        ⟨"var1", .Var⟩, p.2 = MoveType.TypeParameter c6tp :=
  C6_return_type_param_in_params [] _ _ _ (Or.inr (Or.inl rfl))

/-! ### C10 — struct skeleton abilities -/

/-- `move_smith.rs` `generate_type_parameter` (lines 859–908), ability
choice: walk `[Copy, Drop, Store, Key]`; skip excluded abilities, always keep
included ones (the `||` short-circuit consumes no byte), otherwise keep the
ability iff a drawn byte's low bit is set. -/
def chooseAbilities (inc exc : List Ability) :
    List Ability → List Nat → List Ability × List Nat
  | [], bytes => ([], bytes)
  | a :: rest, bytes =>
      if a ∈ exc then chooseAbilities inc exc rest bytes
      else if a ∈ inc then
        let r := chooseAbilities inc exc rest bytes
        (a :: r.1, r.2)
      else
        let d := arbitraryBool bytes
        let r := chooseAbilities inc exc rest d.2
        (if d.1 then a :: r.1 else r.1, r.2)

/-- `move_smith.rs` `generate_type_parameter`: the allocated name is passed
in (the identifier pool is external to this embedding); `is_phantom` is drawn
only when `allow_phantom` holds. -/
def generate_type_parameter (name : Identifier) (allow_phantom : Bool)
    (inc exc : List Ability) (bytes : List Nat) : TypeParameter × List Nat :=
  let pb := match allow_phantom with
    | true => arbitraryBool bytes
    | false => (false, bytes)
  let ab := chooseAbilities inc exc [.Copy, .Drop, .Store, .Key] pb.2
  ({ name := name, abilities := ab.1, is_phantom := pb.1 }, ab.2)

/-- The type-parameter loop of `generate_struct_skeleton`: one
`generate_type_parameter` call per allocated name, with required abilities
`{copy, drop}` and nothing excluded. -/
def generateStructTPs : List Identifier → List Nat →
    List TypeParameter × List Nat
  | [], bytes => ([], bytes)
  | n :: ns, bytes =>
      let tp := generate_type_parameter n false [.Copy, .Drop] [] bytes
      let r := generateStructTPs ns tp.2
      (tp.1 :: r.1, r.2)

/-- `move_smith.rs` `generate_struct_skeleton` (lines 467–513). The ability
loop `for _ in 0..u.int_in_range(0..=0)?` draws its bound from the singleton
range `0..=0`, so it runs zero times and the body (which would move `Store`
or `Key` out of `ability_choices`) is dead code; the struct keeps exactly
`[Drop, Copy]`. -/
def generate_struct_skeleton (name : Identifier) (tpNames : List Identifier)
    (bytes : List Nat) : StructDefinition × List Nat :=
  let tps := generateStructTPs tpNames bytes
  let bound := intInRange00 tps.2
  ({ name := name
     abilities := [.Drop, .Copy]
     type_parameters := ⟨tps.1⟩
     fields := [] }, bound.2)

/-- `move_smith.rs` `generate_module_skeleton` (lines 296–308): the synthetic
struct with all abilities appended to every module. -/
def all_abilities_struct (name : Identifier) : StructDefinition :=
  { name := name, abilities := Ability.ALL, type_parameters := ⟨[]⟩, fields := [] }

/-- `generate_module_skeleton`: the struct list of a module skeleton is the
generated skeletons followed by the all-abilities sentinel. -/
def module_skeleton_structs (skeletons : List StructDefinition)
    (sentinelName : Identifier) : List StructDefinition :=
  skeletons ++ [all_abilities_struct sentinelName]

/-- A struct produced by `generate_struct_skeleton` for some name, allocated
type-parameter names, and byte stream. -/
def IsStructSkeleton (s : StructDefinition) : Prop :=
  ∃ name tpNames bytes, s = (generate_struct_skeleton name tpNames bytes).1

/-- C10: every struct skeleton has ability set exactly `[Drop, Copy]` (the
`0..=0` loop never adds `Store`/`Key`), so in a module skeleton the appended
all-abilities sentinel is the only struct whose abilities include `Key` or
`Store`. -/
theorem C10_skeleton_abilities (skels : List StructDefinition)
    (sentinelName : Identifier) (hsk : ∀ s ∈ skels, IsStructSkeleton s) :
    (∀ s ∈ skels, s.abilities = [Ability.Drop, Ability.Copy]) ∧
      (∀ s ∈ module_skeleton_structs skels sentinelName,
        (Ability.Key ∈ s.abilities ∨ Ability.Store ∈ s.abilities) →
          s = all_abilities_struct sentinelName) := by
  have habs : ∀ s ∈ skels, s.abilities = [Ability.Drop, Ability.Copy] := by
    intro s hs
    obtain ⟨name, tpNames, bytes, rfl⟩ := hsk s hs
    rfl
  refine ⟨habs, ?_⟩
  intro s hs hks
  rcases List.mem_append.mp hs with h | h
  · rw [habs s h] at hks
    rcases hks with hk | hk <;> simp at hk
  · simpa using h

/-! ### The expression AST (`ast.rs`) -/

/-- `ast.rs`: kinds of global resource storage operations. -/
inductive ResourceOperationKind where
  | MoveTo
  | MoveFrom
  | BorrowGlobal
  | BorrowGlobalMut
  | Exists
deriving DecidableEq, Repr

/-- `ast.rs`: a variable access `(name, copy)`. -/
structure VariableAccess where
  name : Identifier
  copy : Bool
deriving DecidableEq, Repr

/-- `ast.rs`: a number literal; `BigUint` is embedded as `Nat`. -/
structure NumberLiteral where
  value : Nat
  typ : MoveType
deriving DecidableEq

/-- `ast.rs`: numerical binary operators. -/
inductive NumericalBinaryOperator where
  | Add | Sub | Mul | Mod | Div
  | BitAnd | BitOr | BitXor | Shl | Shr
  | Le | Ge | Leq | Geq
deriving DecidableEq, Repr

/-- `ast.rs`: boolean binary operators. -/
inductive BooleanBinaryOperator where
  | And
  | Or
deriving DecidableEq, Repr

/-- `ast.rs`: equality binary operators. -/
inductive EqualityBinaryOperator where
  | Eq
  | Neq
deriving DecidableEq, Repr

/-- `ast.rs`: the binary operator sum. -/
inductive BinaryOperator where
  | Numerical (op : NumericalBinaryOperator)
  | Boolean (op : BooleanBinaryOperator)
  | Equality (op : EqualityBinaryOperator)
deriving DecidableEq, Repr

/-- `ast.rs`: kinds of vector operations. -/
inductive VectorOperationKind where
  | Empty | Singleton | Length | Borrow | BorrowMut | PushBack | PopBack
  | DestroyEmpty | Swap | Reverse | Append | IsEmpty | Contains | IndexOf
  | Remove | SwapRemove
deriving DecidableEq, Repr

mutual

/-- `ast.rs`: expressions.  The single-field struct wrappers of the source
(`FunctionCall`, `StructPack`, …) are single-constructor inductives in the
same mutual block. -/
inductive Expression where
  | AddressLiteral (s : String)
  | NumberLiteral (n : NumberLiteral)
  | Variable (v : VariableAccess)
  | Boolean (b : Bool)
  | FunctionCall (c : FunctionCall)
  | StructPack (p : StructPack)
  | Block (b : Block)
  | Assign (a : Assignment)
  | BinaryOperation (b : BinaryOperation)
  | UnaryOperation (u : UnaryOperation)
  | IfElse (i : IfExpr)
  | Reference (e : Expression)
  | Dereference (e : Expression)
  | MutReference (e : Expression)
  | Return (e : Option Expression)
  | Abort (e : Expression)
  | Resource (r : ResourceOperation)
  | VectorOperation (v : VectorOperation)
  | VectorLiteral (v : VectorLiteral)

/-- `ast.rs`: an expression block `(name, stmts, return_expr)`. -/
inductive Block where
  | mk (name : Identifier) (stmts : List Statement) (return_expr : Option Expression)

/-- `ast.rs`: a statement. -/
inductive Statement where
  | Decl (d : Declaration)
  | Expr (e : Expression)

/-- `ast.rs`: a variable declaration `(typs, names, value, emit_type)`. -/
inductive Declaration where
  | mk (typs : List MoveType) (names : List Identifier) (value : Option Expression)
      (emit_type : Bool)

/-- `ast.rs`: a function call `(name, type_args, args)`. -/
inductive FunctionCall where
  | mk (name : Identifier) (type_args : TypeArgs) (args : List Expression)

/-- `ast.rs`: an inline struct initialization `(name, type_args, fields)`. -/
inductive StructPack where
  | mk (name : Identifier) (type_args : TypeArgs)
      (fields : List (Identifier × Expression))

/-- `ast.rs`: an assignment `(name, value, deref)`. -/
inductive Assignment where
  | mk (name : Identifier) (value : Expression) (deref : Bool)

/-- `ast.rs`: a binary operation `(op, lhs, rhs)`. -/
inductive BinaryOperation where
  | mk (op : BinaryOperator) (lhs rhs : Expression)

/-- `ast.rs`: the unary operation. -/
inductive UnaryOperation where
  | Not (e : Expression)

/-- `ast.rs`: an if expression `(condition, body, else_expr)`. -/
inductive IfExpr where
  | mk (condition : Expression) (body : Block) (else_expr : Option ElseExpr)

/-- `ast.rs`: an else branch `(typ, body)`. -/
inductive ElseExpr where
  | mk (typ : Option MoveType) (body : Block)

/-- `ast.rs`: a global storage operation `(kind, typ, args)`. -/
inductive ResourceOperation where
  | mk (kind : ResourceOperationKind) (typ : MoveType) (args : List Expression)

/-- `ast.rs`: a vector operation `(elem_typ, op, args)`; the operation kind is
embedded as a plain identifier-free tag, matching `VectorOperationKind`. -/
inductive VectorOperation where
  | mk (elem_typ : MoveType) (op : VectorOperationKind) (args : List Expression)

/-- `ast.rs`: vector literals. -/
inductive VectorLiteral where
  | Empty (t : MoveType)
  | Multiple (t : MoveType) (es : List Expression)
  | ByteString (s : String)
  | HexString (s : String)

end

/-- `ast.rs`: the function visibility. -/
structure Visibility where
  public : Bool
deriving DecidableEq, Repr

/-- `ast.rs`: a function signature; `acquires` is a `BTreeSet<Identifier>`,
embedded as a `Finset`. -/
structure FunctionSignature where
  inline : Bool
  type_parameters : TypeParameters
  name : Identifier
  parameters : List (Identifier × MoveType)
  return_type : Option MoveType
  acquires : Finset Identifier

/-- `ast.rs`: a function definition. -/
structure Function where
  visibility : Visibility
  signature : FunctionSignature
  body : Option Block

mutual

/-- `ast.rs` `ExprCollector::visit_expr`: push the expression if the filter
accepts it, then descend into children exactly as the source's match does
(`UnaryOperation`, `Return(None)`, variables and literals are not
descended into). -/
def collectExpr (p : Expression → Bool) (e : Expression) : List Expression :=
  (if p e then [e] else []) ++
    match e with
    | .FunctionCall c => collectCall p c
    | .StructPack pk => collectPack p pk
    | .Block b => collectBlock p b
    | .Assign a => collectAssign p a
    | .BinaryOperation b => collectBinop p b
    | .IfElse i => collectIf p i
    | .Reference e' => collectExpr p e'
    | .Dereference e' => collectExpr p e'
    | .MutReference e' => collectExpr p e'
    | .Resource r => collectResource p r
    | .VectorOperation v => collectVecOp p v
    | .VectorLiteral (.Multiple _ es) => collectExprList p es
    | .Return (some e') => collectExpr p e'
    | .Abort e' => collectExpr p e'
    | _ => []

def collectCall (p : Expression → Bool) : FunctionCall → List Expression
  | .mk _ _ args => collectExprList p args

def collectPack (p : Expression → Bool) : StructPack → List Expression
  | .mk _ _ fields => collectPackFields p fields

def collectPackFields (p : Expression → Bool) :
    List (Identifier × Expression) → List Expression
  | [] => []
  | f :: rest => collectExpr p f.2 ++ collectPackFields p rest

/-- `ast.rs` `ExprCollector::visit_block`: statements first, then the return
expression. -/
def collectBlock (p : Expression → Bool) : Block → List Expression
  | .mk _ stmts ret =>
      collectStmtList p stmts ++
        match ret with
        | some e => collectExpr p e
        | none => []

/-- `ast.rs` `ExprCollector::visit_statement`. -/
def collectStmt (p : Expression → Bool) : Statement → List Expression
  | .Decl (.mk _ _ (some v) _) => collectExpr p v
  | .Decl (.mk _ _ none _) => []
  | .Expr e => collectExpr p e

def collectStmtList (p : Expression → Bool) : List Statement → List Expression
  | [] => []
  | s :: rest => collectStmt p s ++ collectStmtList p rest

def collectAssign (p : Expression → Bool) : Assignment → List Expression
  | .mk _ v _ => collectExpr p v

def collectBinop (p : Expression → Bool) : BinaryOperation → List Expression
  | .mk _ l r => collectExpr p l ++ collectExpr p r

def collectIf (p : Expression → Bool) : IfExpr → List Expression
  | .mk c body els =>
      collectExpr p c ++ collectBlock p body ++
        match els with
        | some (.mk _ b) => collectBlock p b
        | none => []

def collectResource (p : Expression → Bool) : ResourceOperation → List Expression
  | .mk _ _ args => collectExprList p args

def collectVecOp (p : Expression → Bool) : VectorOperation → List Expression
  | .mk _ _ args => collectExprList p args

def collectExprList (p : Expression → Bool) : List Expression → List Expression
  | [] => []
  | e :: rest => collectExpr p e ++ collectExprList p rest

end

/-- `ast.rs` `Function::all_exprs`: run the collector over the body, if any. -/
def Function.all_exprs (f : Function) (p : Expression → Bool) : List Expression :=
  match f.body with
  | some b => collectBlock p b
  | none => []

/-- C10 witness: a module skeleton with one generated struct; the theorem
applies and its conclusions evaluate on that instance. -/
theorem C10_skeleton_abilities_witness :
    (∀ s ∈ [(generate_struct_skeleton ⟨"Struct1", .Struct⟩ [] [7]).1],
      s.abilities = [Ability.Drop, Ability.Copy]) ∧
      (∀ s ∈ module_skeleton_structs
          [(generate_struct_skeleton ⟨"Struct1", .Struct⟩ [] [7]).1]
          ⟨"Struct2", .Struct⟩,
        (Ability.Key ∈ s.abilities ∨ Ability.Store ∈ s.abilities) →
          s = all_abilities_struct ⟨"Struct2", .Struct⟩) :=
  C10_skeleton_abilities _ _ (by
    intro s hs
    rw [List.mem_singleton] at hs
    exact ⟨⟨"Struct1", .Struct⟩, [], [7], hs⟩)

/-! ### C7 — `generate_runners` -/

/-- `types.rs` `TypePool::get_signer_var`. -/
def signer_var : Identifier := ⟨"s", .Var⟩

/-- `types.rs` `TypePool::get_signer_ref_var`. -/
def signer_ref_var : Identifier := ⟨"sref", .Var⟩

/-- `move_smith.rs` `generate_runners` (lines 400–461), one loop iteration:
the runner synthesized for a callee with the given signature, run index `i`,
and generated call expression (the byte-driven call generation is passed in
as `call`). -/
def generate_runner (signature : FunctionSignature) (i : Nat)
    (call : FunctionCall) : Function :=
  let sref_dec : Statement := .Decl (.mk [MoveType.Ref .Signer] [signer_ref_var]
    (some (.Reference (.Variable ⟨signer_var, false⟩))) false)
  let new_ret : Option MoveType :=
    match signature.return_type with
    | some (MoveType.TypeParameter _) => none
    | some t => some t
    | none => none
  let body : Block :=
    match new_ret.isNone with
    | true => .mk ⟨"_block_runner", .Block⟩
        [sref_dec, .Expr (.FunctionCall call)] none
    | false => .mk ⟨"_block_runner", .Block⟩ [sref_dec]
        (some (.FunctionCall call))
  { visibility := ⟨true⟩
    signature :=
      { inline := false
        type_parameters := ⟨[]⟩
        name := ⟨signature.name.name ++ "_runner_" ++ toString i, .Function⟩
        parameters := [(signer_var, .Signer)]
        return_type := new_ret
        acquires := signature.acquires }
    body := some body }

/-- A concrete callee signature for the C7 counterexample. -/
def c7sig : FunctionSignature :=
  { inline := false
    type_parameters := ⟨[]⟩
    name := ⟨"function0", .Function⟩
    parameters := [(signer_ref_var, .Ref .Signer)]
    return_type := some .U8
    acquires := ∅ }

/-- A concrete generated call for the C7 counterexample. -/
def c7call : FunctionCall := .mk ⟨"function0", .Function⟩ ⟨[]⟩ []

/-- C7 counterexample: the runner synthesized for `c7sig` does not have an
empty parameter list — it carries the signer parameter `s: signer` — so the
claim as stated fails at this input. -/
theorem C7_counterexample :
    ¬ ((generate_runner c7sig 0 c7call).signature.parameters = [] ∧
      (generate_runner c7sig 0 c7call).signature.acquires = c7sig.acquires) := by
  intro h
  exact absurd h.1 (by decide)

/-- C7 (amended): every runner synthesized by `add_runners` has exactly one
parameter — the signer parameter `s: signer` supplied by the `//# run
--signers` directive — rather than an empty parameter list, and its acquires
set equals the callee's. -/
theorem C7_runner_shape (signature : FunctionSignature) (i : Nat)
    (call : FunctionCall) :
    (generate_runner signature i call).signature.parameters =
        [(signer_var, MoveType.Signer)] ∧
      (generate_runner signature i call).signature.acquires =
        signature.acquires :=
  ⟨rfl, rfl⟩

/-! ### C2 — acquires inference (`post_process_function` / `post_process_module`) -/

/-- The `matches!(e, Expression::Resource(_))` filter. -/
def isResourceExpr : Expression → Bool
  | .Resource _ => true
  | _ => false

/-- The `matches!(e, Expression::FunctionCall(_))` filter. -/
def isFunctionCallExpr : Expression → Bool
  | .FunctionCall _ => true
  | _ => false

/-- `move_smith.rs` `post_process_function` (lines 234–246): the direct
acquires of a function — the `get_name` of the type of every `move_from`,
`borrow_global`, `borrow_global_mut` resource expression in the body. -/
def direct_acquires (f : Function) : Finset Identifier :=
  ((f.all_exprs isResourceExpr).filterMap fun e =>
    match e with
    | .Resource (.mk kind typ _) =>
        if kind = .MoveFrom ∨ kind = .BorrowGlobal ∨ kind = .BorrowGlobalMut
        then some typ.get_name else none
    | _ => none).toFinset

/-- `move_smith.rs` `post_process_module` (lines 149–157): the names of all
functions called from a function's body. -/
def callExprNames (f : Function) : List Identifier :=
  (f.all_exprs isFunctionCallExpr).filterMap fun e =>
    match e with
    | .FunctionCall (.mk name _ _) => some name
    | _ => none

/-- Pointwise update of an acquires map at one function name. -/
def updFun (m : Identifier → Finset Identifier) (k : Identifier)
    (v : Finset Identifier) : Identifier → Finset Identifier :=
  fun x => if x = k then v else m x

/-- The innermost loop of `post_process_module` (lines 165–176): for one
`callee` of `caller`, insert every element of the callee's current acquires
into the caller's, raising the `updated` flag when anything was missing
(self edges are skipped). -/
def acquiresInner (caller : Identifier)
    (s : (Identifier → Finset Identifier) × Bool) (callee : Identifier) :
    (Identifier → Finset Identifier) × Bool :=
  if callee = caller then s
  else if s.1 callee ⊆ s.1 caller then s
  else (updFun s.1 caller (s.1 caller ∪ s.1 callee), true)

/-- One call-map entry of a pass: fold the inner update over the entry's
callees. -/
def acquiresEntry (s : (Identifier → Finset Identifier) × Bool)
    (e : Identifier × List Identifier) :
    (Identifier → Finset Identifier) × Bool :=
  e.2.foldl (acquiresInner e.1) s

/-- One pass of the `while updated` loop of `post_process_module` (lines
160–178): reset the flag, then fold the inner update over every
caller/callee edge of the call map. -/
def acquiresPass (g : List (Identifier × List Identifier))
    (m : Identifier → Finset Identifier) :
    (Identifier → Finset Identifier) × Bool :=
  g.foldl acquiresEntry (m, false)

/-- The `while updated` loop itself, with explicit fuel; the fuel used by
`post_process_module_acquires` below is provably enough to reach the fixed
point the source's unbounded loop reaches. -/
def acquiresLoop (g : List (Identifier × List Identifier)) :
    Nat → (Identifier → Finset Identifier) → (Identifier → Finset Identifier)
  | 0, m => m
  | fuel + 1, m =>
      if (acquiresPass g m).2 then acquiresLoop g fuel (acquiresPass g m).1
      else (acquiresPass g m).1

/-- All function names mentioned by a call map (callers and callees). -/
def acqNames (g : List (Identifier × List Identifier)) : List Identifier :=
  g.map Prod.fst ++ g.flatMap Prod.snd

/-- The union of the initial acquires of every mentioned function: an upper
bound for every set the loop can produce. -/
def acqUniverse (init : Identifier → Finset Identifier)
    (g : List (Identifier × List Identifier)) : Finset Identifier :=
  ((acqNames g).map init).foldr (· ∪ ·) ∅

/-- The total size of the acquires map over the call-map entries; each pass
that raises the `updated` flag strictly increases it. -/
def measureAcq (g : List (Identifier × List Identifier))
    (m : Identifier → Finset Identifier) : Nat :=
  (g.map fun e => (m e.1).card).sum

/-- `move_smith.rs` `post_process_module` (lines 141–185): build the call
map and the initial acquires map from the functions' signatures (which
`post_process_function` has set to the direct acquires during `fill`), then
iterate to the fixed point and read the result off per function name. -/
def post_process_module_acquires (funcs : List Function) :
    Identifier → Finset Identifier :=
  let g := funcs.map fun f => (f.signature.name, callExprNames f)
  let init := fun n =>
    match funcs.find? (fun f => decide (f.signature.name = n)) with
    | some f => f.signature.acquires
    | none => ∅
  acquiresLoop g (g.length * (acqUniverse init g).card + 1) init

theorem acquiresInner_cases (caller : Identifier)
    (s : (Identifier → Finset Identifier) × Bool) (c : Identifier) :
    acquiresInner caller s c = s ∨
      (¬ s.1 c ⊆ s.1 caller ∧ c ≠ caller ∧
        acquiresInner caller s c =
          (updFun s.1 caller (s.1 caller ∪ s.1 c), true)) := by
  unfold acquiresInner
  split_ifs with h1 h2
  · exact Or.inl rfl
  · exact Or.inl rfl
  · exact Or.inr ⟨h2, h1, rfl⟩

theorem acquiresInner_grow (caller : Identifier)
    (s : (Identifier → Finset Identifier) × Bool) (c x : Identifier) :
    s.1 x ⊆ (acquiresInner caller s c).1 x := by
  rcases acquiresInner_cases caller s c with h | ⟨_, _, h⟩
  · rw [h]
  · rw [h]
    show s.1 x ⊆ updFun s.1 caller (s.1 caller ∪ s.1 c) x
    unfold updFun
    split_ifs with hx
    · subst hx; exact Finset.subset_union_left
    · exact subset_rfl

theorem acquiresInner_flag (caller : Identifier)
    (s : (Identifier → Finset Identifier) × Bool) (c : Identifier)
    (h : s.2 = true) : (acquiresInner caller s c).2 = true := by
  rcases acquiresInner_cases caller s c with he | ⟨_, _, he⟩ <;> rw [he]
  exact h

theorem acquiresEntryFold_grow (caller : Identifier) :
    ∀ (callees : List Identifier) (s : (Identifier → Finset Identifier) × Bool)
      (x : Identifier),
      s.1 x ⊆ (callees.foldl (acquiresInner caller) s).1 x
  | [], _, _ => subset_rfl
  | c :: rest, s, x =>
      (acquiresInner_grow caller s c x).trans
        (acquiresEntryFold_grow caller rest (acquiresInner caller s c) x)

theorem acquiresEntryFold_flag (caller : Identifier) :
    ∀ (callees : List Identifier) (s : (Identifier → Finset Identifier) × Bool),
      s.2 = true → (callees.foldl (acquiresInner caller) s).2 = true
  | [], _, h => h
  | c :: rest, s, h =>
      acquiresEntryFold_flag caller rest (acquiresInner caller s c)
        (acquiresInner_flag caller s c h)

theorem acquiresEntryFold_noupd (caller : Identifier) :
    ∀ (callees : List Identifier) (s : (Identifier → Finset Identifier) × Bool),
      (callees.foldl (acquiresInner caller) s).2 = false →
      callees.foldl (acquiresInner caller) s = s ∧ s.2 = false ∧
        ∀ c ∈ callees, c ≠ caller → s.1 c ⊆ s.1 caller
  | [], s, h => ⟨rfl, h, by simp⟩
  | c :: rest, s, h => by
      rw [List.foldl_cons] at h
      have hstep : acquiresInner caller s c = s := by
        rcases acquiresInner_cases caller s c with he | ⟨_, _, he⟩
        · exact he
        · exfalso
          have hko : (rest.foldl (acquiresInner caller)
              (acquiresInner caller s c)).2 = true := by
            apply acquiresEntryFold_flag
            rw [he]
          rw [hko] at h
          exact Bool.noConfusion h
      rw [hstep] at h
      obtain ⟨heq, hflag, hsub⟩ := acquiresEntryFold_noupd caller rest s h
      rw [List.foldl_cons, hstep]
      refine ⟨heq, hflag, ?_⟩
      intro c' hc' hne
      rcases List.mem_cons.mp hc' with h' | h'
      · subst h'
        by_contra hns
        have he : acquiresInner caller s c' =
            (updFun s.1 caller (s.1 caller ∪ s.1 c'), true) := by
          unfold acquiresInner
          rw [if_neg hne, if_neg hns]
        rw [hstep] at he
        have h2 : s.2 = true := by rw [he]
        rw [hflag] at h2
        exact Bool.noConfusion h2
      · exact hsub c' h' hne

theorem acquiresEntryFold_strict (caller : Identifier) :
    ∀ (callees : List Identifier) (s : (Identifier → Finset Identifier) × Bool),
      (callees.foldl (acquiresInner caller) s).2 = true →
      s.2 = true ∨
        (s.1 caller).card <
          ((callees.foldl (acquiresInner caller) s).1 caller).card
  | [], _, h => Or.inl h
  | c :: rest, s, h => by
      rw [List.foldl_cons] at h ⊢
      rcases acquiresInner_cases caller s c with he | ⟨hns, hne, he⟩
      · rw [he] at h ⊢
        exact acquiresEntryFold_strict caller rest s h
      · right
        have h1 : (s.1 caller).card < ((acquiresInner caller s c).1 caller).card := by
          rw [he]
          show (s.1 caller).card < (updFun s.1 caller (s.1 caller ∪ s.1 c) caller).card
          unfold updFun
          rw [if_pos rfl]
          apply Finset.card_lt_card
          rw [Finset.ssubset_def]
          exact ⟨Finset.subset_union_left,
            fun hcon => hns (Finset.subset_union_right.trans hcon)⟩
        exact h1.trans_le
          (Finset.card_le_card
            (acquiresEntryFold_grow caller rest (acquiresInner caller s c) caller))

theorem acquiresPassFold_grow :
    ∀ (g : List (Identifier × List Identifier))
      (s : (Identifier → Finset Identifier) × Bool) (x : Identifier),
      s.1 x ⊆ (g.foldl acquiresEntry s).1 x
  | [], _, _ => subset_rfl
  | e :: rest, s, x =>
      (acquiresEntryFold_grow e.1 e.2 s x).trans
        (acquiresPassFold_grow rest (acquiresEntry s e) x)

theorem acquiresPassFold_noupd :
    ∀ (g : List (Identifier × List Identifier))
      (s : (Identifier → Finset Identifier) × Bool),
      (g.foldl acquiresEntry s).2 = false →
      g.foldl acquiresEntry s = s ∧ s.2 = false ∧
        ∀ e ∈ g, ∀ c ∈ e.2, c ≠ e.1 → s.1 c ⊆ s.1 e.1
  | [], s, h => ⟨rfl, h, by simp⟩
  | e :: rest, s, h => by
      rw [List.foldl_cons] at h
      obtain ⟨heq2, hflag2, hsub2⟩ := acquiresPassFold_noupd rest (acquiresEntry s e) h
      obtain ⟨heq1, hflag1, hsub1⟩ := acquiresEntryFold_noupd e.1 e.2 s hflag2
      have hes : acquiresEntry s e = s := heq1
      rw [List.foldl_cons, hes]
      rw [hes] at heq2 hsub2
      refine ⟨heq2, hflag1, ?_⟩
      intro e' he' c hc hne
      rcases List.mem_cons.mp he' with h' | h'
      · subst h'
        exact hsub1 c hc hne
      · exact hsub2 e' h' c hc hne

theorem acquiresPassFold_strict :
    ∀ (g : List (Identifier × List Identifier))
      (s : (Identifier → Finset Identifier) × Bool),
      (g.foldl acquiresEntry s).2 = true →
      s.2 = true ∨
        ∃ e ∈ g, (s.1 e.1).card < ((g.foldl acquiresEntry s).1 e.1).card
  | [], _, h => Or.inl h
  | e :: rest, s, h => by
      rw [List.foldl_cons] at h ⊢
      rcases acquiresPassFold_strict rest (acquiresEntry s e) h with hf | ⟨e', he', hlt⟩
      · rcases acquiresEntryFold_strict e.1 e.2 s hf with hf' | hlt'
        · exact Or.inl hf'
        · right
          refine ⟨e, List.mem_cons_self _ _, ?_⟩
          exact hlt'.trans_le
            (Finset.card_le_card (acquiresPassFold_grow rest (acquiresEntry s e) e.1))
      · right
        refine ⟨e', List.mem_cons_of_mem _ he', ?_⟩
        exact (Finset.card_le_card (acquiresEntryFold_grow e.1 e.2 s e'.1)).trans_lt hlt

/-- The invariant that every mentioned function's acquires set stays inside
the universe `U`. -/
def AcqInv (ns : List Identifier) (U : Finset Identifier)
    (m : Identifier → Finset Identifier) : Prop :=
  ∀ n ∈ ns, m n ⊆ U

theorem acquiresInner_inv (caller : Identifier)
    (s : (Identifier → Finset Identifier) × Bool) (c : Identifier)
    (ns : List Identifier) (U : Finset Identifier)
    (hcaller : caller ∈ ns) (hc : c ∈ ns) (hinv : AcqInv ns U s.1) :
    AcqInv ns U (acquiresInner caller s c).1 := by
  rcases acquiresInner_cases caller s c with he | ⟨_, _, he⟩ <;> rw [he]
  · exact hinv
  · intro n hn
    show updFun s.1 caller (s.1 caller ∪ s.1 c) n ⊆ U
    unfold updFun
    split_ifs with hx
    · exact Finset.union_subset (hinv caller hcaller) (hinv c hc)
    · exact hinv n hn

theorem acquiresEntryFold_inv (caller : Identifier)
    (ns : List Identifier) (U : Finset Identifier) (hcaller : caller ∈ ns) :
    ∀ (callees : List Identifier) (s : (Identifier → Finset Identifier) × Bool),
      (∀ c ∈ callees, c ∈ ns) → AcqInv ns U s.1 →
      AcqInv ns U (callees.foldl (acquiresInner caller) s).1
  | [], _, _, hinv => hinv
  | c :: rest, s, hcs, hinv =>
      acquiresEntryFold_inv caller ns U hcaller rest (acquiresInner caller s c)
        (fun c' hc' => hcs c' (List.mem_cons_of_mem _ hc'))
        (acquiresInner_inv caller s c ns U hcaller
          (hcs c (List.mem_cons_self _ _)) hinv)

theorem acquiresPassFold_inv (ns : List Identifier) (U : Finset Identifier) :
    ∀ (g : List (Identifier × List Identifier))
      (s : (Identifier → Finset Identifier) × Bool),
      (∀ e ∈ g, e.1 ∈ ns ∧ ∀ c ∈ e.2, c ∈ ns) → AcqInv ns U s.1 →
      AcqInv ns U (g.foldl acquiresEntry s).1
  | [], _, _, hinv => hinv
  | e :: rest, s, hg, hinv =>
      acquiresPassFold_inv ns U rest (acquiresEntry s e)
        (fun e' he' => hg e' (List.mem_cons_of_mem _ he'))
        (acquiresEntryFold_inv e.1 ns U
          (hg e (List.mem_cons_self _ _)).1 e.2 s
          (hg e (List.mem_cons_self _ _)).2 hinv)

theorem measureAcq_le_cap (g : List (Identifier × List Identifier))
    (m : Identifier → Finset Identifier) (U : Finset Identifier)
    (hcard : ∀ e ∈ g, (m e.1).card ≤ U.card) :
    measureAcq g m ≤ g.length * U.card := by
  unfold measureAcq
  calc (g.map fun e => (m e.1).card).sum
      ≤ (g.map fun _ => U.card).sum := List.sum_le_sum hcard
    _ = g.length * U.card := by
        rw [List.map_const', List.sum_replicate, smul_eq_mul]

theorem measureAcq_lt_of_pass (g : List (Identifier × List Identifier))
    (m : Identifier → Finset Identifier)
    (hupd : (acquiresPass g m).2 = true) :
    measureAcq g m < measureAcq g (acquiresPass g m).1 := by
  rcases acquiresPassFold_strict g (m, false) hupd with hf | ⟨e, he, hlt⟩
  · exact Bool.noConfusion hf
  · unfold measureAcq
    apply List.sum_lt_sum
    · intro e' _
      exact Finset.card_le_card (acquiresPassFold_grow g (m, false) e'.1)
    · exact ⟨e, he, hlt⟩

theorem acquiresLoop_grow (g : List (Identifier × List Identifier)) :
    ∀ (fuel : Nat) (m : Identifier → Finset Identifier) (x : Identifier),
      m x ⊆ acquiresLoop g fuel m x
  | 0, _, _ => subset_rfl
  | fuel + 1, m, x => by
      unfold acquiresLoop
      split_ifs with hupd
      · exact (acquiresPassFold_grow g (m, false) x).trans
          (acquiresLoop_grow g fuel (acquiresPass g m).1 x)
      · exact acquiresPassFold_grow g (m, false) x

theorem acquiresLoop_fix (g : List (Identifier × List Identifier))
    (ns : List Identifier) (U : Finset Identifier)
    (hg : ∀ e ∈ g, e.1 ∈ ns ∧ ∀ c ∈ e.2, c ∈ ns) :
    ∀ (fuel : Nat) (m : Identifier → Finset Identifier),
      AcqInv ns U m → g.length * U.card + 1 ≤ fuel + measureAcq g m →
      acquiresPass g (acquiresLoop g fuel m) = (acquiresLoop g fuel m, false)
  | 0, m, hinv, hcap => by
      exfalso
      have hle : measureAcq g m ≤ g.length * U.card :=
        measureAcq_le_cap g m U fun e he =>
          Finset.card_le_card (hinv e.1 (hg e he).1)
      omega
  | fuel + 1, m, hinv, hcap => by
      unfold acquiresLoop
      split_ifs with hupd
      · have hinv' : AcqInv ns U (acquiresPass g m).1 :=
          acquiresPassFold_inv ns U g (m, false) hg hinv
        have hlt := measureAcq_lt_of_pass g m hupd
        exact acquiresLoop_fix g ns U hg fuel (acquiresPass g m).1 hinv' (by omega)
      · have hfalse : (acquiresPass g m).2 = false := Bool.eq_false_iff.mpr hupd
        have hno := acquiresPassFold_noupd g (m, false) hfalse
        have hfix : acquiresPass g m = (m, false) := hno.1
        rw [hfix]
        exact hfix

theorem find?_name_eq_of_nodup :
    ∀ (funcs : List Function) (f : Function),
      (funcs.map fun f' => f'.signature.name).Nodup → f ∈ funcs →
      funcs.find? (fun f' => decide (f'.signature.name = f.signature.name)) =
        some f
  | [], f, _, hf => absurd hf (List.not_mem_nil _)
  | a :: rest, f, hnd, hf => by
      rw [List.map_cons, List.nodup_cons] at hnd
      rcases List.mem_cons.mp hf with h | h
      · subst h
        rw [List.find?_cons_of_pos _ (by simp)]
      · have hne : a.signature.name ≠ f.signature.name := by
          intro heq
          exact hnd.1 (heq ▸ List.mem_map_of_mem (fun f' => f'.signature.name) h)
        rw [List.find?_cons_of_neg _ (by simpa using hne)]
        exact find?_name_eq_of_nodup rest f hnd.2 h

/-- C2: after the `post_process_module` acquires fixed point, every
function's acquires set contains its direct resource-operation targets and
the acquires set of every distinct callee.  The hypothesis `hdirect` states
that each signature's acquires field holds the function's direct acquires,
which is what `post_process_function` established for every function during
`fill_function`. -/
theorem C2_acquires_closure (funcs : List Function)
    (hnd : (funcs.map fun f => f.signature.name).Nodup)
    (hdirect : ∀ f ∈ funcs, f.signature.acquires = direct_acquires f) :
    ∀ f ∈ funcs,
      direct_acquires f ⊆ post_process_module_acquires funcs f.signature.name ∧
        ∀ c ∈ callExprNames f, c ≠ f.signature.name →
          post_process_module_acquires funcs c ⊆
            post_process_module_acquires funcs f.signature.name := by
  intro f hf
  set g := funcs.map fun f' => (f'.signature.name, callExprNames f') with hgdef
  set init : Identifier → Finset Identifier := fun n =>
    match funcs.find? (fun f' => decide (f'.signature.name = n)) with
    | some f' => f'.signature.acquires
    | none => ∅ with hinitdef
  have hinitf : init f.signature.name = direct_acquires f := by
    rw [hinitdef]
    simp only
    rw [find?_name_eq_of_nodup funcs f hnd hf]
    exact hdirect f hf
  have hres : post_process_module_acquires funcs =
      acquiresLoop g (g.length * (acqUniverse init g).card + 1) init := rfl
  have hinv : AcqInv (acqNames g) (acqUniverse init g) init := by
    intro n hn
    unfold acqUniverse
    have : init n ∈ (acqNames g).map init := List.mem_map_of_mem init hn
    revert this
    generalize (acqNames g).map init = l
    intro hmem
    induction l with
    | nil => cases hmem
    | cons x xs ih =>
      rcases List.mem_cons.mp hmem with h | h
      · subst h
        exact Finset.subset_union_left
      · exact (ih h).trans Finset.subset_union_right
  have hgns : ∀ e ∈ g, e.1 ∈ acqNames g ∧ ∀ c ∈ e.2, c ∈ acqNames g := by
    intro e he
    constructor
    · exact List.mem_append_left _ (List.mem_map_of_mem Prod.fst he)
    · intro c hc
      exact List.mem_append_right _ (List.mem_flatMap_of_mem he hc)
  have hfix := acquiresLoop_fix g (acqNames g) (acqUniverse init g) hgns
    (g.length * (acqUniverse init g).card + 1) init hinv (by omega)
  have hsub := (acquiresPassFold_noupd g
    (acquiresLoop g (g.length * (acqUniverse init g).card + 1) init, false)
    (by rw [show (g.foldl acquiresEntry
      (acquiresLoop g (g.length * (acqUniverse init g).card + 1) init, false)) =
        acquiresPass g
          (acquiresLoop g (g.length * (acqUniverse init g).card + 1) init)
        from rfl, hfix])).2.2
  constructor
  · rw [hres, ← hinitf]
    exact acquiresLoop_grow g _ init f.signature.name
  · intro c hc hne
    rw [hres]
    have hfe : (f.signature.name, callExprNames f) ∈ g :=
      List.mem_map_of_mem (fun f' => (f'.signature.name, callExprNames f')) hf
    exact hsub (f.signature.name, callExprNames f) hfe c hc hne

/-- A function whose body performs `move_from<Struct3>`. -/
def c2g : Function :=
  { visibility := ⟨true⟩
    signature :=
      { inline := false
        type_parameters := ⟨[]⟩
        name := ⟨"function1", .Function⟩
        parameters := []
        return_type := none
        acquires := {⟨"Struct3", .Struct⟩} }
    body := some (.mk ⟨"_block1", .Block⟩
      [.Expr (.Resource (.mk .MoveFrom (.Struct ⟨⟨"Struct3", .Struct⟩, ⟨[]⟩⟩) []))]
      none) }

/-- A function whose body calls `function1`. -/
def c2f : Function :=
  { visibility := ⟨true⟩
    signature :=
      { inline := false
        type_parameters := ⟨[]⟩
        name := ⟨"function0", .Function⟩
        parameters := []
        return_type := none
        acquires := ∅ }
    body := some (.mk ⟨"_block0", .Block⟩
      [.Expr (.FunctionCall (.mk ⟨"function1", .Function⟩ ⟨[]⟩ []))] none) }

/-- C2 witness: in the two-function module where `function0` calls
`function1` and `function1` does `move_from<Struct3>`, the fixed point gives
`acquires(function1) ⊆ acquires(function0)`. -/
theorem C2_acquires_closure_witness :
    post_process_module_acquires [c2f, c2g] ⟨"function1", .Function⟩ ⊆
      post_process_module_acquires [c2f, c2g] ⟨"function0", .Function⟩ :=
  ((C2_acquires_closure [c2f, c2g] (by decide) (by
      intro f hf
      rcases List.mem_cons.mp hf with h | h
      · subst h; decide
      · rcases List.mem_cons.mp h with h' | h'
        · subst h'; decide
        · cases h')) c2f (List.mem_cons_self _ _)).2
    ⟨"function1", .Function⟩ (by decide) (by decide)

/-! ### C8 — `choose_idx_weighted` (`utils.rs`) -/

/-- Floor of the base-2 logarithm, by structural recursion on an explicit
fuel bound (so that it evaluates inside the kernel). -/
def log2Fuel : Nat → Nat → Nat
  | 0, _ => 0
  | fuel + 1, n => if 2 ≤ n then log2Fuel fuel (n / 2) + 1 else 0

/-- Floor of `log2 n` for `n ≥ 1` (`n` itself bounds the recursion). -/
def floorLog2Nat (n : Nat) : Nat := log2Fuel n n

/-- Ceiling of `log2 n` for `n ≥ 1`. -/
def ceilLog2Nat (n : Nat) : Nat :=
  if n ≤ 1 then 0 else floorLog2Nat (n - 1) + 1

/-- IEEE-754 binary32 rounding (round to nearest, ties to even) of the exact
nonnegative rational `a / b`, returned as a dyadic pair `(m, s)` denoting the
value `m / 2 ^ s`.  Every quantity flowing through `choose_idx_weighted` — a
`u32` weight or sum cast to `f32`, a quotient of two such values, a running
sum of quotients in `[0, 1]`-ish range, and `draw / 100` — lies well inside
the binary32 normal range, so exponent overflow and subnormal rounding never
arise and are not modelled.  `b = 0` covers the source's division by zero
(`0.0 / 0.0 = NaN`, possible only when every weight is zero): it is mapped to
the zero pair, which — like `NaN` — satisfies no `≤` comparison against the
strictly positive choice values the amended theorem quantifies over, and
`choose_idx_weighted` returns index `0` on that input either way. -/
def roundF32 (a b : Nat) : Nat × Nat :=
  if a = 0 ∨ b = 0 then (0, 0)
  else
    let e : Int :=
      (if b ≤ a then (floorLog2Nat (a / b) : Int)
       else -(ceilLog2Nat ((b + a - 1) / a) : Int)) - 23
    let ma : Nat := if 0 ≤ e then a else a * 2 ^ (-e).toNat
    let mb : Nat := if 0 ≤ e then b * 2 ^ e.toNat else b
    let f : Nat := ma / mb
    let r : Nat := ma % mb
    let m : Nat :=
      if 2 * r < mb then f
      else if mb < 2 * r then f + 1
      else if f % 2 = 0 then f else f + 1
    if 0 ≤ e then (m * 2 ^ e.toNat, 0) else (m, (-e).toNat)

/-- binary32 `≤` on dyadic pairs: compare the exact values. -/
def f32le (x y : Nat × Nat) : Bool :=
  decide (x.1 * 2 ^ y.2 ≤ y.1 * 2 ^ x.2)

/-- binary32 addition: round the exact sum.  When one operand is zero the
exact sum is the other operand, which is already a binary32 value and hence
returned unchanged by IEEE addition; the two guard branches encode exactly
that (every pair reaching `f32add` in this development is the zero pair or a
`roundF32` result). -/
def f32add (x y : Nat × Nat) : Nat × Nat :=
  if x.1 = 0 then y
  else if y.1 = 0 then x
  else roundF32 (x.1 * 2 ^ y.2 + y.1 * 2 ^ x.2) (2 ^ (x.2 + y.2))

/-- binary32 division: round the exact quotient (see `roundF32` for the
divisor-zero case). -/
def f32div (x y : Nat × Nat) : Nat × Nat :=
  roundF32 (x.1 * 2 ^ y.2) (y.1 * 2 ^ x.2)

/-- The `scan` of `choose_idx_weighted` building cumulative thresholds
`*acc += *x as f32 / sum as f32` in `f32`: `total` is `sum as f32` and `acc`
the running `f32` accumulator. -/
def thresholdsAux (total : Nat × Nat) : Nat × Nat → List Nat → List (Nat × Nat)
  | _, [] => []
  | acc, w :: ws =>
      f32add acc (f32div (roundF32 w 1) total) ::
        thresholdsAux total (f32add acc (f32div (roundF32 w 1) total)) ws

/-- The cumulative `f32` threshold list of `choose_idx_weighted`: the sum is
taken in `u32` (hence the `% 2 ^ 32`) and cast to `f32`, and the scan starts
from `0.0f32`. -/
def thresholds (weights : List Nat) : List (Nat × Nat) :=
  thresholdsAux (roundF32 (weights.sum % 2 ^ 32) 1) (0, 0) weights

/-- The selection loop of `choose_idx_weighted`: the first index whose
threshold is `≥` the drawn choice. -/
def firstIdxLe (choice : Nat × Nat) : List (Nat × Nat) → Option Nat
  | [] => none
  | t :: ts => if f32le choice t then some 0 else (firstIdxLe choice ts).map (· + 1)

/-- `utils.rs` `choose_idx_weighted` (lines 49–67): `draw` is the
`int_in_range(0..=100)` result, cast to `f32` (exactly, being at most `100`;
the rounding function is applied uniformly) and divided by the exact literal
`100.0`; the first threshold `≥` choice wins, and the fallback after the
loop is `Ok(0)`. -/
def choose_idx_weighted (weights : List Nat) (draw : Nat) : Nat :=
  match firstIdxLe (f32div (roundF32 draw 1) (100, 0)) (thresholds weights) with
  | some i => i
  | none => 0

/-- C8 counterexample: the claim that a zero-probability index is never
chosen fails twice over.  For weights `[0, 1]` and draw `0`, the choice
`0.0` is `≤` the first threshold `0.0` and index `0` — weight `0` — is
selected.  For weights `[0, 49, 27, 3, 17, 33, 32, 26]` and draw `100`, the
`f32` cumulative thresholds end at `16777215 / 2^24 = 0.99999994` — strictly
below the choice `1.0` — so the loop falls through entirely and the fallback
`Ok(0)` again returns the zero-weight index `0`. -/
theorem C8_counterexample :
    (choose_idx_weighted [0, 1] 0 = 0 ∧ [0, 1].getD 0 1 = 0) ∧
    (choose_idx_weighted [0, 49, 27, 3, 17, 33, 32, 26] 100 = 0 ∧
      [0, 49, 27, 3, 17, 33, 32, 26].getD 0 1 = 0 ∧
      (thresholds [0, 49, 27, 3, 17, 33, 32, 26]).getLast? =
        some (16777215, 24) ∧
      firstIdxLe (f32div (roundF32 100 1) (100, 0))
        (thresholds [0, 49, 27, 3, 17, 33, 32, 26]) = none) := by
  decide

theorem f32le_zero_weight_step (total choice acc : Nat × Nat)
    (hacc : f32le choice acc = false) :
    f32le choice (f32add acc (f32div (roundF32 0 1) total)) = false := by
  have h0 : roundF32 0 1 = (0, 0) := by decide
  have h1 : f32div (0, 0) total = (0, 0) := by
    unfold f32div roundF32
    simp
  have h2 : f32add acc (0, 0) = if acc.1 = 0 then (0, 0) else acc := by
    unfold f32add
    simp
  rw [h0, h1, h2]
  by_cases ha0 : acc.1 = 0
  · rw [if_pos ha0]
    unfold f32le at hacc ⊢
    refine decide_eq_false ?_
    intro hle
    have hch : choice.1 = 0 := by simpa using hle
    have htrue : decide (choice.1 * 2 ^ acc.2 ≤ acc.1 * 2 ^ choice.2) = true :=
      decide_eq_true (by rw [hch]; simp)
    rw [htrue] at hacc
    exact Bool.noConfusion hacc
  · rw [if_neg ha0]
    exact hacc

theorem firstIdxLe_hit_nonzero (total choice : Nat × Nat) :
    ∀ (ws : List Nat) (acc : Nat × Nat) (i : Nat),
      f32le choice acc = false →
      firstIdxLe choice (thresholdsAux total acc ws) = some i →
      i < ws.length ∧ 0 < ws.getD i 0
  | [], acc, i, hacc, hfind => by
      exact absurd hfind (by simp [thresholdsAux, firstIdxLe])
  | w :: ws, acc, i, hacc, hfind => by
      have hstep : firstIdxLe choice (thresholdsAux total acc (w :: ws)) =
          if f32le choice (f32add acc (f32div (roundF32 w 1) total)) then some 0
          else (firstIdxLe choice (thresholdsAux total
              (f32add acc (f32div (roundF32 w 1) total)) ws)).map (· + 1) := rfl
      rw [hstep] at hfind
      cases hc : f32le choice (f32add acc (f32div (roundF32 w 1) total)) with
      | true =>
          rw [if_pos hc] at hfind
          obtain rfl : (0 : Nat) = i := Option.some.inj hfind
          refine ⟨Nat.succ_pos _, ?_⟩
          rcases Nat.eq_zero_or_pos w with rfl | hw
          · rw [f32le_zero_weight_step total choice acc hacc] at hc
            exact Bool.noConfusion hc
          · simpa using hw
      | false =>
          have hnc : ¬ f32le choice
              (f32add acc (f32div (roundF32 w 1) total)) = true := by
            rw [hc]
            exact Bool.false_ne_true
          rw [if_neg hnc] at hfind
          cases hrec : firstIdxLe choice (thresholdsAux total
              (f32add acc (f32div (roundF32 w 1) total)) ws) with
          | none =>
              rw [hrec] at hfind
              exact absurd hfind (by simp)
          | some j =>
              rw [hrec] at hfind
              have hij : j + 1 = i := by simpa using hfind
              obtain ⟨hlen, hpos⟩ :=
                firstIdxLe_hit_nonzero total choice ws
                  (f32add acc (f32div (roundF32 w 1) total)) j hc hrec
              rw [← hij]
              exact ⟨Nat.succ_lt_succ hlen, by simpa using hpos⟩

/-- C8 (amended): for every weight list and every draw in `1..=100`,
whenever the threshold loop returns an index (rather than falling through to
the fallback `Ok(0)`), that index is in range and its weight is nonzero.
Zero-weight indices can still be returned — via the loop at draw `0` (choice
`0.0` matches a zero first threshold) and via the fallback at draw `100`
when the `f32` cumulative thresholds end below `1.0`, as the counterexample
shows — but a positive draw that the scan serves never lands on a
zero-weight index: a zero weight leaves the running `f32` threshold exactly
unchanged, so the scan would already have stopped one position earlier. -/
theorem C8_nonzero_weight (weights : List Nat) (draw i : Nat)
    (hdraw1 : 1 ≤ draw) (hdraw2 : draw ≤ 100)
    (hhit : firstIdxLe (f32div (roundF32 draw 1) (100, 0))
      (thresholds weights) = some i) :
    choose_idx_weighted weights draw = i ∧
      i < weights.length ∧ 0 < weights.getD i 0 := by
  have h100 : ∀ d < 101, 1 ≤ d →
      f32le (f32div (roundF32 d 1) (100, 0)) (0, 0) = false := by decide
  have hacc : f32le (f32div (roundF32 draw 1) (100, 0)) (0, 0) = false :=
    h100 draw (by omega) hdraw1
  have hhit' : firstIdxLe (f32div (roundF32 draw 1) (100, 0))
      (thresholdsAux (roundF32 (weights.sum % 2 ^ 32) 1) (0, 0) weights) =
      some i := hhit
  obtain ⟨hlen, hpos⟩ :=
    firstIdxLe_hit_nonzero (roundF32 (weights.sum % 2 ^ 32) 1)
      (f32div (roundF32 draw 1) (100, 0)) weights (0, 0) i hacc hhit'
  refine ⟨?_, hlen, hpos⟩
  unfold choose_idx_weighted
  rw [hhit]

/-- C8 witness: weights `[0, 20, 30]` with draw `40` — the scan stops at
index `1` (threshold `0.4`), whose weight `20` is nonzero. -/
theorem C8_nonzero_weight_witness :
    choose_idx_weighted [0, 20, 30] 40 = 1 ∧
      1 < [0, 20, 30].length ∧ 0 < [0, 20, 30].getD 1 0 :=
  C8_nonzero_weight [0, 20, 30] 40 1 (by decide) (by decide) (by decide)

/-! ### C4 — struct acyclicity (`fill_struct` / `check_struct_reachable`) -/

/-- The struct name of a type, when it has one (the match at the head of
`get_all_used_struct_in_type`: only `Struct` and `StructConcrete` have
definitions to descend into). -/
def structName? : MoveType → Option Identifier
  | .Struct st => some st.name
  | .StructConcrete name _ => some name
  | _ => none

/-- `move_smith.rs` `get_struct_definition_with_identifier`: first struct
definition with the given name, searching all modules' struct tables (here:
one flat table). -/
def lookupStruct (table : List StructDefinition) (id : Identifier) :
    Option StructDefinition :=
  table.find? fun s => decide (s.name = id)

/-- The field types of the definition looked up by name.  The source
`unwrap`s the lookup (a missing definition panics); a missing definition
contributes no successors here. -/
def fieldTypes (table : List StructDefinition) (id : Identifier) :
    List MoveType :=
  match lookupStruct table id with
  | some sd => sd.fields.map fun f => f.2
  | none => []

/-- The type arguments of a concrete struct type (the second loop of
`get_all_used_struct_in_type`). -/
def directArgs : MoveType → List MoveType
  | .StructConcrete _ args => args
  | _ => []

/-- `move_smith.rs` `get_all_used_struct_in_type` (lines 681–707): the set
of types one step away from `t` — all field types of `t`'s struct definition
plus `t`'s own type arguments.  (In the source every type is inserted into
`reached` immediately before the recursive call on it, so each recursive
call returns at its first check and `reached` collects exactly this one
level; transitivity comes from `check_struct_reachable`'s own recursion.)
The `BTreeSet` iteration order and deduplication are dropped: the DFS
result is characterized below independently of order. -/
def succs (table : List StructDefinition) (t : MoveType) : List MoveType :=
  match structName? t with
  | none => []
  | some n => fieldTypes table n ++ directArgs t

/-- One reachability step of the struct graph. -/
def Step (table : List StructDefinition) (a b : MoveType) : Prop :=
  b ∈ succs table a

/-- `move_smith.rs` `check_struct_reachable` (lines 641–678): depth-first
search for a type named `sink`, threading the `checked` visited set through
the recursion.  The source recursion terminates because `checked` grows; the
embedding adds explicit fuel, and `chkFuel` below is proved to be enough for
the search to be exhaustive. -/
def check_struct_reachable (table : List StructDefinition) (sink : Identifier) :
    Nat → List MoveType → MoveType → Bool × List MoveType
  | 0, checked, _ => (false, checked)
  | fuel + 1, checked, src =>
      if src.get_name = sink then (true, checked)
      else if src ∈ checked then (false, checked)
      else
        (succs table src).foldl
          (fun acc st =>
            if acc.1 then acc
            else if st.get_name = sink then (true, acc.2)
            else check_struct_reachable table sink fuel acc.2 st)
          (false, src :: checked)

mutual

/-- The types appearing in a type: itself and, recursively, its type
arguments — the successor-closed hull of a single type apart from table
fields. -/
def argClosure : MoveType → List MoveType
  | .StructConcrete n args => .StructConcrete n args :: argClosureList args
  | t => [t]

/-- Pointwise `argClosure` over a list. -/
def argClosureList : List MoveType → List MoveType
  | [] => []
  | t :: rest => argClosure t ++ argClosureList rest

end

/-- All types reachable through the table's fields. -/
def tableTypes (table : List StructDefinition) : List MoveType :=
  table.flatMap fun s => s.fields.flatMap fun f => argClosure f.2

/-- A finite universe containing `src` and closed under `succs`. -/
def chkUniverse (table : List StructDefinition) (src : MoveType) :
    List MoveType :=
  argClosure src ++ tableTypes table

/-- Enough fuel for `check_struct_reachable` to explore the whole universe. -/
def chkFuel (table : List StructDefinition) (src : MoveType) : Nat :=
  (chkUniverse table src).length + 1

/-- The number of universe elements not yet visited. -/
def unvisited (U checked : List MoveType) : Nat :=
  (U.filter fun x => decide (x ∉ checked)).length

/-- `move_smith.rs` `fill_struct`: appending a field to the struct(s) named
`sname` — the `st.borrow_mut().fields.push((name, typ))` of line 601. -/
def addFieldTable (table : List StructDefinition) (sname : Identifier)
    (fld : Identifier × MoveType) : List StructDefinition :=
  table.map fun s =>
    if s.name = sname then { s with fields := s.fields ++ [fld] } else s

/-- The basic-type branch of `fill_struct` (branch `0 | 1`): the random type
drawn with `(allow_bool, struct, type_param, instantiatable, reference) =
(true, false, true, false, false)` is a numeric type, `bool`, or a type
parameter. -/
def isBasicFieldType : MoveType → Bool
  | .U8 | .U16 | .U32 | .U64 | .U128 | .U256 | .Bool => true
  | .TypeParameter _ => true
  | _ => false

/-- The struct tables constructible by `fill_struct`: starting from
skeletons (no fields), repeatedly append either a basic-typed field, or a
concrete-struct-typed field that passed the `check_struct_reachable` guard
of line 589.  The `hname` hypothesis of `add_basic` reflects the identifier
pool's global name uniqueness (spec §3): the canonical name of a primitive
or type-parameter field type never collides with a struct's name. -/
inductive BuiltStructTable : List StructDefinition → Prop where
  | skeletons (t0 : List StructDefinition) :
      (∀ S ∈ t0, S.fields = []) → BuiltStructTable t0
  | add_basic (t : List StructDefinition) (sname : Identifier)
      (fld : Identifier × MoveType) :
      BuiltStructTable t → isBasicFieldType fld.2 = true →
      fld.2.get_name ≠ sname →
      BuiltStructTable (addFieldTable t sname fld)
  | add_struct (t : List StructDefinition) (sname : Identifier)
      (fld : Identifier × MoveType) :
      BuiltStructTable t →
      (∃ nm args, fld.2 = MoveType.StructConcrete nm args) →
      (check_struct_reachable t sname (chkFuel t fld.2) [] fld.2).1 = false →
      BuiltStructTable (addFieldTable t sname fld)

/-- Claim C4's property: no struct reaches a type carrying its own name
through one or more field/type-argument steps. -/
def StructAcyclic (table : List StructDefinition) : Prop :=
  ∀ S ∈ table, ∀ t, Relation.TransGen (Step table) S.get_type t →
    structName? t ≠ some S.name

theorem structName?_get_name :
    ∀ (b : MoveType) (n : Identifier), structName? b = some n → b.get_name = n := by
  intro b n h
  cases b <;> simp [structName?] at h <;> subst h <;> rfl

theorem structName?_basic (b : MoveType) (hb : isBasicFieldType b = true) :
    structName? b = none := by
  cases b <;> first | rfl | exact Bool.noConfusion hb

theorem self_mem_argClosure : ∀ t : MoveType, t ∈ argClosure t := by
  intro t
  cases t <;> exact List.mem_cons_self _ _

theorem argClosure_subset_argClosureList :
    ∀ (l : List MoveType) (t : MoveType), t ∈ l → ∀ x ∈ argClosure t, x ∈ argClosureList l
  | [], t, ht => absurd ht (List.not_mem_nil t)
  | b :: rest, t, ht => by
      intro x hx
      rcases List.mem_cons.mp ht with h | h
      · subst h
        exact List.mem_append_left _ hx
      · exact List.mem_append_right _
          (argClosure_subset_argClosureList rest t h x hx)

theorem mem_argClosureList :
    ∀ (l : List MoveType) (u : MoveType), u ∈ argClosureList l → ∃ b ∈ l, u ∈ argClosure b
  | [], u, hu => absurd hu (List.not_mem_nil u)
  | b :: rest, u, hu => by
      rcases List.mem_append.mp hu with h | h
      · exact ⟨b, List.mem_cons_self _ _, h⟩
      · obtain ⟨b', hb', hub'⟩ := mem_argClosureList rest u h
        exact ⟨b', List.mem_cons_of_mem _ hb', hub'⟩

theorem argClosure_args_aux : ∀ n : Nat,
    (∀ w : MoveType, sizeOf w ≤ n →
      ∀ u ∈ argClosure w, ∀ a ∈ directArgs u, a ∈ argClosure w) ∧
    (∀ l : List MoveType, sizeOf l ≤ n →
      ∀ u ∈ argClosureList l, ∀ a ∈ directArgs u, a ∈ argClosureList l) := by
  intro n
  induction n with
  | zero =>
    constructor
    · intro w hs; cases w <;> simp at hs
    · intro l hs; cases l <;> simp at hs
  | succ n ih =>
    constructor
    · intro w hs u hu a ha
      cases w
      case StructConcrete nm args =>
        have hu' : u = MoveType.StructConcrete nm args ∨ u ∈ argClosureList args :=
          List.mem_cons.mp hu
        rcases hu' with h | h
        · subst h
          exact List.mem_cons_of_mem _
            (argClosure_subset_argClosureList args a ha a (self_mem_argClosure a))
        · have hsl : sizeOf args ≤ n := by simp at hs; omega
          exact List.mem_cons_of_mem _ (ih.2 args hsl u h a ha)
      all_goals
        (have hu' := List.mem_singleton.mp hu
         subst hu'
         exact absurd ha (List.not_mem_nil a))
    · intro l hs u hu a ha
      cases l with
      | nil => exact absurd hu (List.not_mem_nil u)
      | cons b rest =>
        rcases List.mem_append.mp hu with h | h
        · have hsb : sizeOf b ≤ n := by simp at hs; omega
          exact List.mem_append_left _ (ih.1 b hsb u h a ha)
        · have hsr : sizeOf rest ≤ n := by simp at hs; omega
          exact List.mem_append_right _ (ih.2 rest hsr u h a ha)

theorem argClosure_args (w u : MoveType) (hu : u ∈ argClosure w) :
    ∀ a ∈ directArgs u, a ∈ argClosure w :=
  (argClosure_args_aux (sizeOf w)).1 w le_rfl u hu

theorem mem_tableTypes_of_field (table : List StructDefinition)
    (sd : StructDefinition) (hsd : sd ∈ table) (f : Identifier × MoveType)
    (hf : f ∈ sd.fields) : ∀ x ∈ argClosure f.2, x ∈ tableTypes table := by
  intro x hx
  unfold tableTypes
  rw [List.mem_flatMap]
  exact ⟨sd, hsd, by rw [List.mem_flatMap]; exact ⟨f, hf, hx⟩⟩

theorem mem_tableTypes_elim (table : List StructDefinition) (v : MoveType)
    (hv : v ∈ tableTypes table) :
    ∃ sd ∈ table, ∃ f ∈ sd.fields, v ∈ argClosure f.2 := by
  unfold tableTypes at hv
  rw [List.mem_flatMap] at hv
  obtain ⟨sd, hsd, hv'⟩ := hv
  rw [List.mem_flatMap] at hv'
  obtain ⟨f, hf, hx⟩ := hv'
  exact ⟨sd, hsd, f, hf, hx⟩

theorem chkUniverse_closed (table : List StructDefinition) (src : MoveType) :
    ∀ v ∈ chkUniverse table src, ∀ w ∈ succs table v, w ∈ chkUniverse table src := by
  intro v hv w hw
  unfold succs at hw
  rcases hsn : structName? v with _ | n
  · rw [hsn] at hw
    exact absurd hw (List.not_mem_nil w)
  · rw [hsn] at hw
    rcases List.mem_append.mp hw with h | h
    · -- a field type of the looked-up definition: lives in `tableTypes`
      unfold fieldTypes at h
      rcases hlk : lookupStruct table n with _ | sd
      · rw [hlk] at h
        exact absurd h (List.not_mem_nil w)
      · rw [hlk] at h
        obtain ⟨f, hf, hfw⟩ := List.mem_map.mp h
        have hsd : sd ∈ table := List.mem_of_find?_eq_some hlk
        exact List.mem_append_right _
          (mem_tableTypes_of_field table sd hsd f hf w
            (hfw ▸ self_mem_argClosure f.2))
    · -- a type argument of `v`: stays in whichever `argClosure` holds `v`
      rcases List.mem_append.mp hv with h' | h'
      · exact List.mem_append_left _ (argClosure_args src v h' w h)
      · obtain ⟨sd, hsd, f, hf, hvf⟩ := mem_tableTypes_elim table v h'
        exact List.mem_append_right _
          (mem_tableTypes_of_field table sd hsd f hf w
            (argClosure_args f.2 v hvf w h))

theorem length_filter_mono {α : Type} (p q : α → Bool)
    (h : ∀ x, p x = true → q x = true) :
    ∀ l : List α, (l.filter p).length ≤ (l.filter q).length := by
  intro l
  induction l with
  | nil => exact le_rfl
  | cons a rest ih =>
    rw [List.filter_cons, List.filter_cons]
    by_cases hp : p a = true
    · rw [hp, h a hp]
      simpa using ih
    · rw [Bool.eq_false_iff.mpr hp]
      by_cases hq : q a = true
      · rw [hq]
        exact ih.trans (by simp)
      · rw [Bool.eq_false_iff.mpr hq]
        exact ih

theorem unvisited_mono (U checked checked' : List MoveType)
    (h : checked ⊆ checked') : unvisited U checked' ≤ unvisited U checked := by
  unfold unvisited
  apply length_filter_mono
  intro x hx
  rw [decide_eq_true_eq] at hx ⊢
  exact fun hmem => hx (h hmem)

theorem unvisited_cons_lt (U checked : List MoveType) (src : MoveType)
    (hU : src ∈ U) (hnc : src ∉ checked) :
    unvisited U (src :: checked) < unvisited U checked := by
  unfold unvisited
  induction U with
  | nil => cases hU
  | cons y rest ih =>
    rw [List.filter_cons, List.filter_cons]
    by_cases hy : y = src
    · subst hy
      rw [show decide (y ∉ y :: checked) = false by simp,
        show decide (y ∉ checked) = true by simpa using hnc]
      have hle := length_filter_mono
        (fun x => decide (x ∉ y :: checked)) (fun x => decide (x ∉ checked))
        (fun x hx => by
          rw [decide_eq_true_eq] at hx ⊢
          exact fun hmem => hx (List.mem_cons_of_mem _ hmem)) rest
      simpa using Nat.lt_succ_of_le hle
    · have hsrc : src ∈ rest := by
        rcases List.mem_cons.mp hU with h | h
        · exact absurd h.symm hy
        · exact h
      have hpq : decide (y ∉ src :: checked) = decide (y ∉ checked) := by
        by_cases hyc : y ∈ checked
        · simp [List.mem_cons, hyc]
        · simp [List.mem_cons, hyc, hy]
      rw [hpq]
      by_cases hq : decide (y ∉ checked) = true
      · rw [hq]
        simpa using ih hsrc
      · rw [Bool.eq_false_iff.mpr hq]
        exact ih hsrc

/-- The body of the successor loop of `check_struct_reachable`: skip once
found, report a name match, otherwise recurse sharing the visited set. -/
def chkFoldStep (table : List StructDefinition) (sink : Identifier) (fuel : Nat)
    (acc : Bool × List MoveType) (st : MoveType) : Bool × List MoveType :=
  if acc.1 then acc
  else if st.get_name = sink then (true, acc.2)
  else check_struct_reachable table sink fuel acc.2 st

theorem chk_succ_eq (table : List StructDefinition) (sink : Identifier)
    (fuel : Nat) (checked : List MoveType) (src : MoveType)
    (h1 : ¬ src.get_name = sink) (h2 : src ∉ checked) :
    check_struct_reachable table sink (fuel + 1) checked src =
      (succs table src).foldl (chkFoldStep table sink fuel)
        (false, src :: checked) := by
  unfold check_struct_reachable
  rw [if_neg h1, if_neg h2]
  rfl

theorem chkFold_true (table : List StructDefinition) (sink : Identifier)
    (fuel : Nat) :
    ∀ (l : List MoveType) (acc : Bool × List MoveType), acc.1 = true →
      l.foldl (chkFoldStep table sink fuel) acc = acc
  | [], _, _ => rfl
  | st :: rest, acc, h => by
      rw [List.foldl_cons, show chkFoldStep table sink fuel acc st = acc from by
        unfold chkFoldStep; rw [if_pos h]]
      exact chkFold_true table sink fuel rest acc h

theorem chk_mono (table : List StructDefinition) (sink : Identifier) :
    ∀ (fuel : Nat) (checked : List MoveType) (src : MoveType),
      checked ⊆ (check_struct_reachable table sink fuel checked src).2
  | 0, _, _ => fun _ hx => hx
  | fuel + 1, checked, src => by
      by_cases h1 : src.get_name = sink
      · unfold check_struct_reachable
        rw [if_pos h1]
        exact fun _ hx => hx
      · by_cases h2 : src ∈ checked
        · unfold check_struct_reachable
          rw [if_neg h1, if_pos h2]
          exact fun _ hx => hx
        · rw [chk_succ_eq table sink fuel checked src h1 h2]
          have hfold : ∀ (l : List MoveType) (acc : Bool × List MoveType),
              acc.2 ⊆ (l.foldl (chkFoldStep table sink fuel) acc).2 := by
            intro l
            induction l with
            | nil => exact fun _ _ hx => hx
            | cons st rest ih =>
              intro acc
              rw [List.foldl_cons]
              refine List.Subset.trans ?_ (ih (chkFoldStep table sink fuel acc st))
              unfold chkFoldStep
              split_ifs
              · exact fun _ hx => hx
              · exact fun _ hx => hx
              · exact chk_mono table sink fuel acc.2 st
          exact List.Subset.trans
            (fun x hx => List.mem_cons_of_mem _ hx)
            (hfold (succs table src) (false, src :: checked))

theorem chkFold_complete (table : List StructDefinition) (sink : Identifier)
    (U : List MoveType) (fuel : Nat)
    (ihchk : ∀ (checked : List MoveType) (src : MoveType), src ∈ U →
      unvisited U checked < fuel →
      (check_struct_reachable table sink fuel checked src).1 = false →
      checked ⊆ (check_struct_reachable table sink fuel checked src).2 ∧
        src ∈ (check_struct_reachable table sink fuel checked src).2 ∧
        ∀ v ∈ (check_struct_reachable table sink fuel checked src).2,
          v ∉ checked → v.get_name ≠ sink ∧
            ∀ w ∈ succs table v,
              w ∈ (check_struct_reachable table sink fuel checked src).2) :
    ∀ (l : List MoveType) (acc : Bool × List MoveType),
      (∀ s ∈ l, s ∈ U) → acc.1 = false → unvisited U acc.2 < fuel →
      (l.foldl (chkFoldStep table sink fuel) acc).1 = false →
      acc.2 ⊆ (l.foldl (chkFoldStep table sink fuel) acc).2 ∧
        (∀ s ∈ l, s ∈ (l.foldl (chkFoldStep table sink fuel) acc).2 ∧
          s.get_name ≠ sink) ∧
        ∀ v ∈ (l.foldl (chkFoldStep table sink fuel) acc).2, v ∉ acc.2 →
          v.get_name ≠ sink ∧
            ∀ w ∈ succs table v, w ∈ (l.foldl (chkFoldStep table sink fuel) acc).2
  | [], acc, _, _, _, _ =>
      ⟨fun _ hx => hx, by simp, fun v hv hnv => absurd hv hnv⟩
  | st :: rest, acc, hl, hacc1, hunv, hfinal => by
      rw [List.foldl_cons] at hfinal ⊢
      have hfalse' : (chkFoldStep table sink fuel acc st).1 = false := by
        by_contra hc
        rw [chkFold_true table sink fuel rest _
          (Bool.not_eq_false _ |>.mp hc)] at hfinal
        exact hc hfinal
      have hskip : ¬ acc.1 = true := by rw [hacc1]; exact Bool.noConfusion
      have hname : ¬ st.get_name = sink := by
        intro hn
        have : chkFoldStep table sink fuel acc st = (true, acc.2) := by
          unfold chkFoldStep
          rw [if_neg hskip, if_pos hn]
        rw [this] at hfalse'
        exact Bool.noConfusion hfalse'
      have hchkeq : chkFoldStep table sink fuel acc st =
          check_struct_reachable table sink fuel acc.2 st := by
        unfold chkFoldStep
        rw [if_neg hskip, if_neg hname]
      rw [hchkeq] at hfalse' hfinal ⊢
      obtain ⟨hsub1, hmem1, hP1⟩ :=
        ihchk acc.2 st (hl st (List.mem_cons_self _ _)) hunv hfalse'
      have hunv' : unvisited U (check_struct_reachable table sink fuel acc.2 st).2
          < fuel :=
        lt_of_le_of_lt (unvisited_mono U acc.2 _ hsub1) hunv
      obtain ⟨hsub2, hmem2, hP2⟩ :=
        chkFold_complete table sink U fuel ihchk rest
          (check_struct_reachable table sink fuel acc.2 st)
          (fun s hs => hl s (List.mem_cons_of_mem _ hs)) hfalse' hunv' hfinal
      refine ⟨hsub1.trans hsub2, ?_, ?_⟩
      · intro s hs
        rcases List.mem_cons.mp hs with h | h
        · subst h
          exact ⟨hsub2 hmem1, hname⟩
        · exact hmem2 s h
      · intro v hv hnv
        by_cases hva : v ∈ (check_struct_reachable table sink fuel acc.2 st).2
        · obtain ⟨hn, hsucc⟩ := hP1 v hva hnv
          exact ⟨hn, fun w hw => hsub2 (hsucc w hw)⟩
        · exact hP2 v hv hva

theorem chk_complete (table : List StructDefinition) (sink : Identifier)
    (U : List MoveType)
    (hU : ∀ v ∈ U, ∀ w ∈ succs table v, w ∈ U) :
    ∀ (fuel : Nat) (checked : List MoveType) (src : MoveType), src ∈ U →
      unvisited U checked < fuel →
      (check_struct_reachable table sink fuel checked src).1 = false →
      checked ⊆ (check_struct_reachable table sink fuel checked src).2 ∧
        src ∈ (check_struct_reachable table sink fuel checked src).2 ∧
        ∀ v ∈ (check_struct_reachable table sink fuel checked src).2,
          v ∉ checked → v.get_name ≠ sink ∧
            ∀ w ∈ succs table v,
              w ∈ (check_struct_reachable table sink fuel checked src).2 := by
  intro fuel
  induction fuel with
  | zero => intro checked src _ hunv; exact absurd hunv (Nat.not_lt_zero _)
  | succ fuel ih =>
    intro checked src hsrc hunv hfalse
    by_cases h1 : src.get_name = sink
    · exfalso
      unfold check_struct_reachable at hfalse
      rw [if_pos h1] at hfalse
      exact Bool.noConfusion hfalse
    · by_cases h2 : src ∈ checked
      · have heq : check_struct_reachable table sink (fuel + 1) checked src =
            (false, checked) := by
          unfold check_struct_reachable
          rw [if_neg h1, if_pos h2]
        rw [heq]
        exact ⟨fun _ hx => hx, h2, fun v hv hnv => absurd hv hnv⟩
      · rw [chk_succ_eq table sink fuel checked src h1 h2] at hfalse ⊢
        have hcons : unvisited U (src :: checked) < fuel :=
          Nat.lt_of_lt_of_le (unvisited_cons_lt U checked src hsrc h2)
            (Nat.lt_succ_iff.mp hunv)
        obtain ⟨hsub, hmem, hP⟩ :=
          chkFold_complete table sink U fuel ih (succs table src)
            (false, src :: checked) (hU src hsrc) rfl hcons hfalse
        refine ⟨?_, ?_, ?_⟩
        · exact List.Subset.trans (fun x hx => List.mem_cons_of_mem _ hx) hsub
        · exact hsub (List.mem_cons_self _ _)
        · intro v hv hnv
          by_cases hvs : v = src
          · subst hvs
            exact ⟨h1, fun w hw => (hmem w hw).1⟩
          · have hvnc : v ∉ src :: checked := by
              rw [List.mem_cons]
              push_neg
              exact ⟨hvs, hnv⟩
            exact hP v hv hvnc

/-- If the source's `check_struct_reachable(fld_type, sink)` call returned
`false` (with the fuel that makes the fueled model exhaustive), then no type
reachable from the field type carries the sink name. -/
theorem chk_false_no_reach (table : List StructDefinition) (sink : Identifier)
    (src : MoveType)
    (h : (check_struct_reachable table sink (chkFuel table src) [] src).1 = false) :
    ∀ c, Relation.ReflTransGen (Step table) src c → c.get_name ≠ sink := by
  have hU := chkUniverse_closed table src
  have hsrc : src ∈ chkUniverse table src :=
    List.mem_append_left _ (self_mem_argClosure src)
  have hfuel : unvisited (chkUniverse table src) [] < chkFuel table src := by
    unfold unvisited chkFuel
    have hfe : ((chkUniverse table src).filter
        fun x => decide (x ∉ ([] : List MoveType))) = chkUniverse table src :=
      List.filter_eq_self.mpr fun a _ => by simp
    rw [hfe]
    omega
  obtain ⟨_, hsrcmem, hP⟩ :=
    chk_complete table sink (chkUniverse table src) hU (chkFuel table src)
      [] src hsrc hfuel h
  intro c hrt
  have hc : c ∈ (check_struct_reachable table sink (chkFuel table src) [] src).2 := by
    induction hrt with
    | refl => exact hsrcmem
    | tail _ hstep ihb =>
      rename_i b c' _
      exact (hP b ihb (List.not_mem_nil b)).2 c' hstep
  exact (hP c hc (List.not_mem_nil c)).1

theorem addFieldTable_mem (table : List StructDefinition) (sname : Identifier)
    (fld : Identifier × MoveType) (S' : StructDefinition)
    (h : S' ∈ addFieldTable table sname fld) :
    ∃ S ∈ table, S'.name = S.name ∧ S'.get_type = S.get_type := by
  unfold addFieldTable at h
  obtain ⟨S, hS, hmap⟩ := List.mem_map.mp h
  refine ⟨S, hS, ?_⟩
  rw [← hmap]
  split_ifs <;> exact ⟨rfl, rfl⟩

theorem lookup_addFieldTable (table : List StructDefinition) (sname : Identifier)
    (fld : Identifier × MoveType) (n : Identifier) :
    lookupStruct (addFieldTable table sname fld) n =
      (lookupStruct table n).map fun s =>
        if s.name = sname then { s with fields := s.fields ++ [fld] } else s := by
  unfold lookupStruct addFieldTable
  rw [List.find?_map]
  have hp : ((fun s => decide (s.name = n)) ∘ fun s =>
      if s.name = sname then { s with fields := s.fields ++ [fld] } else s) =
      fun s : StructDefinition => decide (s.name = n) := by
    funext s
    simp only [Function.comp_apply]
    split_ifs <;> rfl
  rw [hp]

theorem fieldTypes_add_subset (table : List StructDefinition) (sname : Identifier)
    (fld : Identifier × MoveType) (n : Identifier) (w : MoveType)
    (h : w ∈ fieldTypes (addFieldTable table sname fld) n) :
    w ∈ fieldTypes table n ∨ (n = sname ∧ w = fld.2) := by
  unfold fieldTypes at h ⊢
  rw [lookup_addFieldTable] at h
  cases hlk : lookupStruct table n with
  | none => rw [hlk] at h; exact absurd h (List.not_mem_nil w)
  | some sd =>
    rw [hlk] at h
    simp only [Option.map_some'] at h
    by_cases hname : sd.name = sname
    · rw [if_pos hname] at h
      simp only [List.map_append] at h
      rcases List.mem_append.mp h with h' | h'
      · exact Or.inl h'
      · have hn : n = sname := by
          have := List.find?_some hlk
          rw [decide_eq_true_eq] at this
          rw [← this]
          exact hname
        exact Or.inr ⟨hn, by simpa using h'⟩
    · rw [if_neg hname] at h
      exact Or.inl h

theorem fieldTypes_add_supset (table : List StructDefinition) (sname : Identifier)
    (fld : Identifier × MoveType) (n : Identifier) (w : MoveType)
    (h : w ∈ fieldTypes table n) :
    w ∈ fieldTypes (addFieldTable table sname fld) n := by
  unfold fieldTypes at h ⊢
  rw [lookup_addFieldTable]
  cases hlk : lookupStruct table n with
  | none => rw [hlk] at h; exact absurd h (List.not_mem_nil w)
  | some sd =>
    rw [hlk] at h
    simp only [Option.map_some']
    split_ifs
    · simp only [List.map_append]
      exact List.mem_append_left _ h
    · exact h

theorem step_add_elim (table : List StructDefinition) (sname : Identifier)
    (fld : Identifier × MoveType) (a b : MoveType)
    (h : Step (addFieldTable table sname fld) a b) :
    Step table a b ∨ (structName? a = some sname ∧ b = fld.2) := by
  unfold Step succs at h ⊢
  cases hsn : structName? a with
  | none => rw [hsn] at h; exact absurd h (List.not_mem_nil b)
  | some n =>
    rw [hsn] at h
    have h' : b ∈ fieldTypes (addFieldTable table sname fld) n ++ directArgs a := h
    rcases List.mem_append.mp h' with hf | ha
    · rcases fieldTypes_add_subset table sname fld n b hf with h'' | ⟨hn, hb⟩
      · exact Or.inl (List.mem_append_left _ h'')
      · exact Or.inr ⟨by rw [hn], hb⟩
    · exact Or.inl (List.mem_append_right _ ha)

theorem rt_transfer (table : List StructDefinition) (sname : Identifier)
    (fld : Identifier × MoveType)
    (hguard : ∀ c, Relation.ReflTransGen (Step table) fld.2 c →
      c.get_name ≠ sname) :
    ∀ c, Relation.ReflTransGen (Step (addFieldTable table sname fld)) fld.2 c →
      Relation.ReflTransGen (Step table) fld.2 c := by
  intro c h
  induction h with
  | refl => exact .refl
  | tail hrt hstep ih =>
    rename_i b c'
    rcases step_add_elim table sname fld b c' hstep with hs | ⟨hsn, hc⟩
    · exact ih.tail hs
    · exact absurd (structName?_get_name b sname hsn) (hguard b ih)

theorem transGen_add_split (table : List StructDefinition) (sname : Identifier)
    (fld : Identifier × MoveType) (a b : MoveType)
    (h : Relation.TransGen (Step (addFieldTable table sname fld)) a b) :
    Relation.TransGen (Step table) a b ∨
      ∃ u, Relation.ReflTransGen (Step table) a u ∧
        structName? u = some sname ∧
        Relation.ReflTransGen (Step (addFieldTable table sname fld)) fld.2 b := by
  induction h using Relation.TransGen.head_induction_on with
  | base hstep =>
    rename_i a'
    rcases step_add_elim table sname fld a' b hstep with hs | ⟨hsn, hb⟩
    · exact Or.inl (.single hs)
    · exact Or.inr ⟨a', .refl, hsn, by rw [← hb]⟩
  | ih hstep htrans ihm =>
    rename_i a' c
    rcases step_add_elim table sname fld a' c hstep with hs | ⟨hsn, hc⟩
    · rcases ihm with hl | ⟨u, hrt, hun, hrt'⟩
      · exact Or.inl (hl.head hs)
      · exact Or.inr ⟨u, hrt.head hs, hun, hrt'⟩
    · refine Or.inr ⟨a', .refl, hsn, ?_⟩
      subst hc
      exact htrans.to_reflTransGen

theorem acyclic_addField (table : List StructDefinition) (sname : Identifier)
    (fld : Identifier × MoveType) (hacy : StructAcyclic table)
    (hguard : ∀ c, Relation.ReflTransGen (Step table) fld.2 c →
      c.get_name ≠ sname) :
    StructAcyclic (addFieldTable table sname fld) := by
  intro S' hS' t htg hsn
  obtain ⟨S, hS, hname, htype⟩ := addFieldTable_mem table sname fld S' hS'
  rw [htype] at htg
  rw [hname] at hsn
  rcases transGen_add_split table sname fld S.get_type t htg with
    hl | ⟨u, hrt_su, hu_name, hrt_fb⟩
  · exact hacy S hS t hl hsn
  · have hrt_fb' : Relation.ReflTransGen (Step table) fld.2 t :=
      rt_transfer table sname fld hguard t hrt_fb
    rcases Relation.ReflTransGen.cases_head hrt_su with heq | ⟨w, hw, hwu⟩
    · have hSname : S.name = sname := by
        rw [← heq] at hu_name
        have hst : structName? S.get_type = some S.name := rfl
        rw [hst] at hu_name
        exact Option.some.inj hu_name
      exact hguard t hrt_fb'
        (by rw [structName?_get_name t S.name hsn, hSname])
    · have hsuccS : succs table S.get_type = fieldTypes table S.name := by
        have h1 : succs table S.get_type =
            fieldTypes table S.name ++ directArgs S.get_type := rfl
        rw [h1, show directArgs S.get_type = [] from rfl, List.append_nil]
      have hwf : w ∈ fieldTypes table S.name := by
        have hw' : w ∈ succs table S.get_type := hw
        rwa [hsuccS] at hw'
      have hstep_tw : Step table t w := by
        unfold Step succs
        rw [hsn]
        exact List.mem_append_left _ hwf
      have hrt_fu : Relation.ReflTransGen (Step table) fld.2 u :=
        (hrt_fb'.tail hstep_tw).trans hwu
      exact hguard u hrt_fu (structName?_get_name u sname hu_name)

theorem skeleton_acyclic (t0 : List StructDefinition)
    (h0 : ∀ S ∈ t0, S.fields = []) : StructAcyclic t0 := by
  intro S hS t htg hlast
  have hnostep : ∀ x, ¬ Step t0 S.get_type x := by
    intro x hx
    unfold Step succs at hx
    have hst : structName? S.get_type = some S.name := rfl
    rw [hst] at hx
    have hx' : x ∈ fieldTypes t0 S.name ++ directArgs S.get_type := hx
    have hft : fieldTypes t0 S.name = [] := by
      unfold fieldTypes
      cases hlk : lookupStruct t0 S.name with
      | none => rfl
      | some sd =>
        show List.map (fun f => f.2) sd.fields = []
        rw [h0 sd (List.mem_of_find?_eq_some hlk)]
        rfl
    rw [hft, show directArgs S.get_type = [] from rfl] at hx'
    exact List.not_mem_nil x hx'
  clear hlast
  induction htg with
  | single h => exact hnostep _ h
  | tail _ _ ih => exact ih

/-- C4: every struct table reachable by `fill_struct`'s guarded field
insertions is acyclic — no struct's transitive reachable-struct closure
(following field types and type arguments) contains a type carrying the
struct's own name. -/
theorem C4_struct_acyclic (table : List StructDefinition)
    (h : BuiltStructTable table) : StructAcyclic table := by
  induction h with
  | skeletons t0 h0 => exact skeleton_acyclic t0 h0
  | add_basic t sname fld _ hbasic hname ih =>
    apply acyclic_addField t sname fld ih
    intro c hrt
    have hnostep : ∀ x, ¬ Step t fld.2 x := by
      intro x hx
      unfold Step succs at hx
      rw [structName?_basic fld.2 hbasic] at hx
      exact List.not_mem_nil x hx
    have hc : c = fld.2 := by
      rcases Relation.ReflTransGen.cases_head hrt with h | ⟨w, hw, _⟩
      · exact h.symm
      · exact absurd hw (hnostep w)
    rw [hc]
    exact hname
  | add_struct t sname fld _ _ hchk ih =>
    exact acyclic_addField t sname fld ih (chk_false_no_reach t sname fld.2 hchk)

/-- A fieldless skeleton `Struct4`. -/
def c4A : StructDefinition := ⟨⟨"Struct4", .Struct⟩, [.Drop, .Copy], ⟨[]⟩, []⟩

/-- A fieldless skeleton `Struct5`. -/
def c4B : StructDefinition := ⟨⟨"Struct5", .Struct⟩, [.Drop, .Copy], ⟨[]⟩, []⟩

/-- The table where `Struct4` received a field of type `Struct5` after the
reachability guard accepted it. -/
def c4Table : List StructDefinition :=
  addFieldTable [c4A, c4B] ⟨"Struct4", .Struct⟩
    (⟨"var20", .Var⟩, .StructConcrete ⟨"Struct5", .Struct⟩ [])

/-- C4 witness: the concrete guarded build of `c4Table` is acyclic. -/
theorem C4_struct_acyclic_witness : StructAcyclic c4Table :=
  C4_struct_acyclic c4Table
    (BuiltStructTable.add_struct [c4A, c4B] ⟨"Struct4", .Struct⟩
      (⟨"var20", .Var⟩, .StructConcrete ⟨"Struct5", .Struct⟩ [])
      (BuiltStructTable.skeletons [c4A, c4B] (by decide))
      ⟨⟨"Struct5", .Struct⟩, [], rfl⟩
      (by decide))

/-! ### C5 — field ability soundness (`derive_abilities_of_type`) -/

/-- The numeric and `bool` types — the first arm of
`derive_abilities_of_type` and the non-type-parameter outcomes of
`get_random_type` with `allow_struct = false`. -/
def isNumOrBool : MoveType → Bool
  | .U8 | .U16 | .U32 | .U64 | .U128 | .U256 | .Bool => true
  | _ => false

/-- `move_smith.rs` `derive_abilities_of_type` (lines 2884–2900): numeric and
`bool` types get `Ability::PRIMITIVES`; a non-concrete struct type gets its
definition's declared abilities (the source `unwrap`s the lookup, so a
missing definition panics; it contributes `[]` here); a type parameter
carries its own abilities; every other type — `StructConcrete` included, as
the source's own TODO comment notes — falls through to `Ability::NONE`. -/
def derive_abilities_of_type (table : List StructDefinition) :
    MoveType → List Ability
  | .U8 | .U16 | .U32 | .U64 | .U128 | .U256 | .Bool => Ability.PRIMITIVES
  | .Struct st =>
      match lookupStruct table st.name with
      | some sd => sd.abilities
      | none => []
  | .TypeParameter tp => tp.abilities
  | _ => Ability.NONE

/-- `move_smith.rs` `get_usable_struct_type` (lines 611–638): keep the
struct definitions whose declared abilities contain every desired ability,
that have `store` whenever `key` is desired, and whose registered type
(`Type::Struct`, the `type_pool` entry made at skeleton time) does not reach
the parent struct.  The identifier/scope walk is flattened to the module's
struct table. -/
def get_usable_struct_type (desired : List Ability)
    (table : List StructDefinition) (parent_struct_id : Identifier) :
    List StructDefinition :=
  table.filter fun sd =>
    (desired.all fun a => decide (a ∈ sd.abilities)) &&
    !(decide (Ability.Key ∈ desired) && !(decide (Ability.Store ∈ sd.abilities))) &&
    !(check_struct_reachable table parent_struct_id
        (chkFuel table sd.get_type) [] sd.get_type).1

/-- The field types `fill_struct` (lines 516–604) can commit for a struct
`S`.  Branch `0 | 1` (and the struct-limit fallback of branch `2`) breaks
with a numeric/`bool` type or one of the type parameters in the struct's
scope — the struct's own type parameters.  Branch `2` breaks only with a
concrete struct type: the chosen candidate comes from
`get_usable_struct_type`, is concretized (which keeps its head name), and
must again pass the `check_struct_reachable` guard of line 589; a
non-concretizable candidate (one without type parameters) never matches the
`Type::StructConcrete` pattern and is retried. -/
inductive FieldTypeOK (table : List StructDefinition) (S : StructDefinition) :
    MoveType → Prop where
  | basic (t : MoveType) :
      isNumOrBool t = true → FieldTypeOK table S t
  | type_param (tp : TypeParameter) :
      tp ∈ S.type_parameters.type_parameters →
      FieldTypeOK table S (.TypeParameter tp)
  | struct_field (sd : StructDefinition) (args : List MoveType) :
      sd ∈ get_usable_struct_type S.abilities table S.name →
      (check_struct_reachable table S.name
        (chkFuel table (.StructConcrete sd.name args)) []
        (.StructConcrete sd.name args)).1 = false →
      FieldTypeOK table S (.StructConcrete sd.name args)

/-- A type parameter with `copy` and `drop`, as `generate_struct_skeleton`
always requests (`include = Some(vec![Copy, Drop])`). -/
def c5tp : TypeParameter := ⟨⟨"T0", .TypeParameter⟩, [.Copy, .Drop], false⟩

/-- A generated struct with the standard skeleton abilities and one type
parameter. -/
def c5Parent : StructDefinition :=
  ⟨⟨"Struct1", .Struct⟩, [.Drop, .Copy], ⟨[c5tp]⟩, []⟩

/-- A second generated struct, usable as a field of `c5Parent` once
concretized. -/
def c5Child : StructDefinition :=
  ⟨⟨"Struct2", .Struct⟩, [.Drop, .Copy], ⟨[c5tp]⟩, []⟩

/-- The module's all-abilities sentinel struct, which `fill_module` fills
like any other struct. -/
def c5Sent : StructDefinition := all_abilities_struct ⟨"Struct3", .Struct⟩

/-- A module struct table as `generate_module_skeleton` lays it out. -/
def c5Table : List StructDefinition := [c5Parent, c5Child, c5Sent]

/-- C5 counterexample: the claim `derive_abilities(type(F)) ⊇ A` fails twice
over.  The sentinel struct (abilities `ALL`, `key` included) accepts a plain
`u8` field whose derived abilities are only `PRIMITIVES`; and an ordinary
struct accepts a concrete-struct field (here `Struct2<u8>`, obtained from
candidate `Struct2` and accepted by the reachability guard) whose derived
abilities are `NONE = []`, which contains neither `drop` nor `copy`. -/
theorem C5_counterexample :
    (FieldTypeOK c5Table c5Sent .U8 ∧
      ¬ ∀ a ∈ c5Sent.abilities, a ∈ derive_abilities_of_type c5Table .U8) ∧
    (FieldTypeOK c5Table c5Parent
        (.StructConcrete ⟨"Struct2", .Struct⟩ [.U8]) ∧
      ¬ ∀ a ∈ c5Parent.abilities,
        a ∈ derive_abilities_of_type c5Table
          (.StructConcrete ⟨"Struct2", .Struct⟩ [.U8])) :=
  ⟨⟨FieldTypeOK.basic .U8 rfl, by decide⟩,
   ⟨FieldTypeOK.struct_field c5Child [.U8] (by decide) (by decide), by decide⟩⟩

/-- C5 (amended): for a generated non-sentinel struct — declared abilities
exactly `[Drop, Copy]` and every type parameter carrying `copy` and `drop`,
which is how `generate_struct_skeleton` builds all of them — a field type
accepted by `fill_struct` either has derived abilities containing the
struct's ability set (numeric, `bool`, and type-parameter fields), or is a
concrete struct type whose candidate's declared abilities contain it
(`derive_abilities_of_type` itself returns `NONE` on concrete struct
types); and every struct of a module skeleton, the all-abilities sentinel
included, has `store` whenever it has `key`. -/
theorem C5_field_abilities (table : List StructDefinition)
    (S : StructDefinition) (skels : List StructDefinition)
    (sentinelName : Identifier)
    (hS : S.abilities = [Ability.Drop, Ability.Copy])
    (htp : ∀ tp ∈ S.type_parameters.type_parameters,
      Ability.Copy ∈ tp.abilities ∧ Ability.Drop ∈ tp.abilities)
    (hsk : ∀ s ∈ skels, IsStructSkeleton s)
    (t : MoveType) (h : FieldTypeOK table S t) :
    ((∀ a ∈ S.abilities, a ∈ derive_abilities_of_type table t) ∨
      ∃ sd args, sd ∈ get_usable_struct_type S.abilities table S.name ∧
        t = MoveType.StructConcrete sd.name args ∧
        ∀ a ∈ S.abilities, a ∈ sd.abilities) ∧
    ∀ s ∈ module_skeleton_structs skels sentinelName,
      Ability.Key ∈ s.abilities → Ability.Store ∈ s.abilities := by
  constructor
  · cases h with
    | basic t hb =>
      refine Or.inl fun a ha => ?_
      rw [hS] at ha
      have hd : derive_abilities_of_type table t = Ability.PRIMITIVES := by
        cases t <;> first | rfl | simp [isNumOrBool] at hb
      rw [hd]
      fin_cases ha <;> decide
    | type_param tp htpm =>
      refine Or.inl fun a ha => ?_
      rw [hS] at ha
      obtain ⟨hcopy, hdrop⟩ := htp tp htpm
      have hd : derive_abilities_of_type table (.TypeParameter tp) =
          tp.abilities := rfl
      rw [hd]
      fin_cases ha
      · exact hdrop
      · exact hcopy
    | struct_field sd args hmem hchk =>
      refine Or.inr ⟨sd, args, hmem, rfl, fun a ha => ?_⟩
      have hcond := (List.mem_filter.mp hmem).2
      rw [Bool.and_eq_true, Bool.and_eq_true] at hcond
      exact of_decide_eq_true (List.all_eq_true.mp hcond.1.1 a ha)
  · intro s hs hkey
    rcases List.mem_append.mp hs with hmem | hmem
    · obtain ⟨nm, tns, bts, rfl⟩ := hsk s hmem
      have habs : (generate_struct_skeleton nm tns bts).1.abilities =
          [Ability.Drop, Ability.Copy] := rfl
      rw [habs] at hkey
      exact absurd hkey (by decide)
    · have hsent : s = all_abilities_struct sentinelName := by simpa using hmem
      rw [hsent]
      show Ability.Store ∈ Ability.ALL
      decide

/-- C5 witness: for the concrete struct `c5Parent` and a type-parameter
field, the amended theorem applies with every hypothesis discharged. -/
theorem C5_field_abilities_witness :
    ((∀ a ∈ c5Parent.abilities,
        a ∈ derive_abilities_of_type c5Table (MoveType.TypeParameter c5tp)) ∨
      ∃ sd args,
        sd ∈ get_usable_struct_type c5Parent.abilities c5Table c5Parent.name ∧
        MoveType.TypeParameter c5tp = MoveType.StructConcrete sd.name args ∧
        ∀ a ∈ c5Parent.abilities, a ∈ sd.abilities) ∧
    ∀ s ∈ module_skeleton_structs [] ⟨"Struct3", IdentifierKind.Struct⟩,
      Ability.Key ∈ s.abilities → Ability.Store ∈ s.abilities :=
  C5_field_abilities c5Table c5Parent [] ⟨"Struct3", .Struct⟩ rfl (by decide)
    (fun s hs => absurd hs (List.not_mem_nil s))
    (MoveType.TypeParameter c5tp)
    (FieldTypeOK.type_param c5tp (by decide))

end MoveSmith
